/-
Verification of the pyquartic closed-form cubic/quartic solvers
(`solve_cubic`, `solve_cubic_one`, `solve_quartic` in pyquartic.py).

Embedding conventions.  Double-precision arithmetic is modelled by exact
real arithmetic (ℝ), complex values by ℂ.  The Python functions can fault
in exactly two ways: reading the unassigned local `theta` (when the Viete
branch is reached with `q > 0`) and a domain error in `math.acos` /
`math.sqrt`; both are modelled by returning `none`.  The NaN path of the quartic
documented NaN path (`s <= 0` sets `r = NaN`, contaminating all four
roots) is modelled by `none` components in the returned quadruple, since
every arithmetic operation on a NaN yields NaN and each of the four roots
depends on `r`.  `cmath.sqrt` is only ever applied to real-valued floats
in this code, so it is embedded as a function on ℝ returning the
principal complex square root.
-/
import Mathlib

noncomputable section

open Real

/-- Module constant `sq3 = math.sqrt(3)`. -/
def sq3 : ℝ := Real.sqrt 3

/-- Module constant `pi23 = 2 * math.pi / 3`. -/
def pi23 : ℝ := 2 * Real.pi / 3

/-- Real cube root as computed by `x ** (1/3)` on a nonnegative float. -/
def cbrt (x : ℝ) : ℝ := x ^ ((1 : ℝ) / 3)

/-- Embedding of `cmath.sqrt` restricted to real arguments (the only use in the source):
the principal complex square root of the real number `x`. -/
def csqrt (x : ℝ) : ℂ := if 0 ≤ x then (Real.sqrt x : ℂ) else ⟨0, Real.sqrt (-x)⟩

/-- Intermediate `q` of `solve_cubic`. -/
def cubic_q (a b c d : ℝ) : ℝ := (c / a) / 3 - (b / a) ^ 2 / 9

/-- Intermediate `r` of `solve_cubic`. -/
def cubic_r (a b c d : ℝ) : ℝ := ((c / a) * (b / a) - 3 * (d / a)) / 6 - (b / a) ^ 3 / 27

/-- Intermediate `rq` of `solve_cubic` (the branch discriminant). -/
def cubic_rq (a b c d : ℝ) : ℝ := cubic_r a b c d ^ 2 + cubic_q a b c d ^ 3

/-- Intermediate `aa` of `solve_cubic` (Cardano branch). -/
def cubic_aa (a b c d : ℝ) : ℝ :=
  cbrt (|cubic_r a b c d| + Real.sqrt (cubic_rq a b c d))

/-- The shared Viete-branch theta computation: `theta` is assigned only when
`q == 0` or `q < 0`, and `math.acos` requires its argument in `[-1, 1]`;
any other path faults. -/
def vieteTheta (q r : ℝ) : Option ℝ :=
  if q = 0 then some 0
  else if q < 0 then
    let w := r / (-q) ^ ((3 : ℝ) / 2)
    if -1 ≤ w ∧ w ≤ 1 then some (Real.arccos w) else none
  else none

/-- Embedding of `solve_cubic(a, b, c, d)`: the three roots of
`a z^3 + b z^2 + c z + d = 0`, or `none` on the fault path. -/
def solve_cubic (a b c d : ℝ) : Option (ℂ × ℂ × ℂ) :=
  let a2 := b / a
  let q := cubic_q a b c d
  let r := cubic_r a b c d
  let rq := cubic_rq a b c d
  if 0 < rq then
    let aa := cubic_aa a b c d
    let t := if 0 ≤ r then aa - q / aa else q / aa - aa
    let z1 := t - a2 / 3
    let x := -t / 2 - a2 / 3
    let y := sq3 / 2 * (aa + q / aa)
    some (⟨z1, 0⟩, ⟨x, y⟩, ⟨x, -y⟩)
  else
    (vieteTheta q r).map fun theta =>
      let m := 2 * Real.sqrt (-q)
      let n := a2 / 3
      let phi1 := theta / 3
      let phi2 := phi1 - pi23
      let phi3 := phi1 + pi23
      (⟨m * Real.cos phi1 - n, 0⟩, ⟨m * Real.cos phi2 - n, 0⟩, ⟨m * Real.cos phi3 - n, 0⟩)

/-- Intermediate `q` of `solve_cubic_one`. -/
def cubicOne_q (a b c : ℝ) : ℝ := b / 3 - a ^ 2 / 9

/-- Intermediate `r` of `solve_cubic_one`. -/
def cubicOne_r (a b c : ℝ) : ℝ := (b * a - 3 * c) / 6 - a ^ 3 / 27

/-- Intermediate `rq` of `solve_cubic_one`. -/
def cubicOne_rq (a b c : ℝ) : ℝ := cubicOne_r a b c ^ 2 + cubicOne_q a b c ^ 3

/-- Intermediate `aa` of `solve_cubic_one` (Cardano branch). -/
def cubicOne_aa (a b c : ℝ) : ℝ :=
  cbrt (|cubicOne_r a b c| + Real.sqrt (cubicOne_rq a b c))

/-- Embedding of `solve_cubic_one(a, b, c)`: one real root of the depressed
cubic `z^3 + a z^2 + b z + c = 0`, or `none` on the fault path. -/
def solve_cubic_one (a b c : ℝ) : Option ℝ :=
  let q := cubicOne_q a b c
  let r := cubicOne_r a b c
  let rq := cubicOne_rq a b c
  if 0 < rq then
    let aa := cubicOne_aa a b c
    let t := if 0 ≤ r then aa - q / aa else q / aa - aa
    some (t - a / 3)
  else
    (vieteTheta q r).map fun theta =>
      2 * Real.sqrt (-q) * Real.cos (theta / 3) - a / 3

/-- Intermediate `cc` of `solve_quartic`. -/
def quartic_cc (a b : ℝ) : ℝ := (b / a) / 4

/-- Intermediate `b2` of `solve_quartic` (depressed quartic coefficient). -/
def quartic_b2 (a b c : ℝ) : ℝ := c / a - 6 * quartic_cc a b ^ 2

/-- Intermediate `b1` of `solve_quartic` (depressed quartic coefficient). -/
def quartic_b1 (a b c d : ℝ) : ℝ :=
  d / a - 2 * (c / a) * quartic_cc a b + 8 * quartic_cc a b ^ 3

/-- Intermediate `b0` of `solve_quartic` (depressed quartic coefficient). -/
def quartic_b0 (a b c d e : ℝ) : ℝ :=
  e / a - (d / a) * quartic_cc a b + (c / a) * quartic_cc a b ^ 2 - 3 * quartic_cc a b ^ 4

/-- Intermediate `y` of `solve_quartic`: the clamped real root of the
resolvent cubic, `none` if the resolvent solve faults. -/
def quartic_y (a b c d e : ℝ) : Option ℝ :=
  (solve_cubic_one (quartic_b2 a b c) (quartic_b2 a b c ^ 2 / 4 - quartic_b0 a b c d e)
      (-(quartic_b1 a b c d ^ 2) / 8)).map fun y => max y 0

/-- Intermediate `s` of `solve_quartic`. -/
def quartic_s (a b c d e : ℝ) : Option ℝ :=
  (quartic_y a b c d e).map fun y =>
    y ^ 2 + quartic_b2 a b c * y + quartic_b2 a b c ^ 2 / 4 - quartic_b0 a b c d e

/-- Intermediate `r` of `solve_quartic`; `none` models `r = NaN` on `s <= 0`. -/
def quartic_r (a b c d e : ℝ) : Option ℝ :=
  (quartic_s a b c d e).bind fun s =>
    if 0 < s then
      some (if quartic_b1 a b c d < 0 then -Real.sqrt s else Real.sqrt s)
    else none

/-- Embedding of `solve_quartic(a, b, c, d, e)`: the four roots of
`a z^4 + b z^3 + c z^2 + d z + e = 0`.  The outer `Option` is `none` on the
fault path; a `none` component models a NaN-contaminated root. -/
def solve_quartic (a b c d e : ℝ) : Option (Option ℂ × Option ℂ × Option ℂ × Option ℂ) :=
  (quartic_y a b c d e).map fun y =>
    let cc := quartic_cc a b
    let b2 := quartic_b2 a b c
    let b1 := quartic_b1 a b c d
    let b0 := quartic_b0 a b c d e
    let s := y ^ 2 + b2 * y + b2 ^ 2 / 4 - b0
    let p := csqrt (y / 2) - (cc : ℂ)
    let p1 := -csqrt (y / 2) - (cc : ℂ)
    let q := -y / 2 - b2 / 2
    if 0 < s then
      let r := if b1 < 0 then -Real.sqrt s else Real.sqrt s
      (some (p + csqrt (q - r)), some (p - csqrt (q - r)),
       some (p1 + csqrt (q + r)), some (p1 - csqrt (q + r)))
    else (none, none, none, none)

/-! ### Basic facts about the embedded primitives -/

lemma cbrt_cube (x : ℝ) (hx : 0 ≤ x) : cbrt x ^ 3 = x := by
  rw [cbrt, ← Real.rpow_natCast (x ^ ((1 : ℝ) / 3)) 3, ← Real.rpow_mul hx]
  norm_num

lemma cbrt_pos (x : ℝ) (hx : 0 < x) : 0 < cbrt x :=
  Real.rpow_pos_of_pos hx _

lemma csqrt_sq (x : ℝ) : csqrt x ^ 2 = (x : ℂ) := by
  rw [csqrt]
  by_cases hx : 0 ≤ x
  · rw [if_pos hx]
    have : ((Real.sqrt x : ℝ) : ℂ) ^ 2 = ((Real.sqrt x ^ 2 : ℝ) : ℂ) := by push_cast; ring
    rw [this, Real.sq_sqrt hx]
  · rw [if_neg hx]
    rw [Complex.mk_eq_add_mul_I]
    have h1 : ((0 : ℝ) : ℂ) + (Real.sqrt (-x) : ℂ) * Complex.I = (Real.sqrt (-x) : ℂ) * Complex.I := by
      push_cast; ring
    rw [h1, mul_pow, Complex.I_sq]
    have h2 : ((Real.sqrt (-x) : ℝ) : ℂ) ^ 2 = ((Real.sqrt (-x) ^ 2 : ℝ) : ℂ) := by push_cast; ring
    rw [h2, Real.sq_sqrt (by linarith : (0 : ℝ) ≤ -x)]
    push_cast
    ring

lemma csqrt_of_nonneg (x : ℝ) (hx : 0 ≤ x) : csqrt x = (Real.sqrt x : ℂ) := by
  rw [csqrt, if_pos hx]

lemma sq3_sq : sq3 ^ 2 = 3 := Real.sq_sqrt (by norm_num)

/-! ### Depressed-cubic root identities (exact arithmetic) -/

/-- Un-depressing a root: if `w` solves the depressed cubic `w^3 + 3q w - 2r = 0`
built from the normalized coefficients, then `w - a2/3` solves the monic cubic. -/
lemma monic_of_depressed (a2 a1 a0 q r : ℝ) (hq : q = a1 / 3 - a2 ^ 2 / 9)
    (hr : r = (a1 * a2 - 3 * a0) / 6 - a2 ^ 3 / 27) (w : ℂ)
    (hw : w ^ 3 + 3 * (q : ℂ) * w - 2 * (r : ℂ) = 0) :
    (w - (a2 : ℂ) / 3) ^ 3 + (a2 : ℂ) * (w - (a2 : ℂ) / 3) ^ 2
      + (a1 : ℂ) * (w - (a2 : ℂ) / 3) + (a0 : ℂ) = 0 := by
  have hq' : (q : ℂ) = (a1 : ℂ) / 3 - (a2 : ℂ) ^ 2 / 9 := by exact_mod_cast hq
  have hr' : (r : ℂ) = ((a1 : ℂ) * (a2 : ℂ) - 3 * (a0 : ℂ)) / 6 - (a2 : ℂ) ^ 3 / 27 := by
    exact_mod_cast hr
  linear_combination hw - 3 * w * hq' + 2 * hr'

/-- The central Cardano identity: with `u` the real cube root of
`|r| + sqrt(r^2 + q^3)`, we have `u^3 - (q/u)^3 = 2 |r|`. -/
lemma cardano_key (q r : ℝ) (h : 0 < r ^ 2 + q ^ 3) :
    cbrt (|r| + Real.sqrt (r ^ 2 + q ^ 3)) ^ 3
      - (q / cbrt (|r| + Real.sqrt (r ^ 2 + q ^ 3))) ^ 3 = 2 * |r| := by
  set S := Real.sqrt (r ^ 2 + q ^ 3) with hSdef
  set u := cbrt (|r| + S) with hudef
  have hS2 : S ^ 2 = r ^ 2 + q ^ 3 := Real.sq_sqrt h.le
  have hSpos : 0 < S := Real.sqrt_pos.mpr h
  have hbase : (0 : ℝ) < |r| + S := by positivity
  have hu3 : u ^ 3 = |r| + S := cbrt_cube _ hbase.le
  have hupos : 0 < u := cbrt_pos _ hbase
  have hu0 : u ^ 3 ≠ 0 := by positivity
  have hq3 : q ^ 3 = (S - |r|) * u ^ 3 := by
    rw [hu3]
    linear_combination sq_abs r - hS2
  rw [div_pow, hq3, mul_div_assoc, div_self hu0, mul_one, hu3]
  ring

lemma cardano_aa_pos (q r : ℝ) (h : 0 < r ^ 2 + q ^ 3) :
    0 < cbrt (|r| + Real.sqrt (r ^ 2 + q ^ 3)) := by
  have hSpos : 0 < Real.sqrt (r ^ 2 + q ^ 3) := Real.sqrt_pos.mpr h
  exact cbrt_pos _ (by positivity)

/-- The real Cardano root: if `u v = q` and `u^3 - v^3 = 2r` then `u - v`
solves the depressed cubic. -/
lemma depressed_real_root (u v q r : ℝ) (huv : u * v = q) (hc : u ^ 3 - v ^ 3 = 2 * r) :
    (u - v) ^ 3 + 3 * q * (u - v) - 2 * r = 0 := by
  linear_combination hc + 3 * (v - u) * huv

/-- The complex Cardano root: under the same hypotheses, the complex number
with real part `-(u-v)/2` and imaginary part `(sqrt 3 / 2)(u+v)` also solves
the depressed cubic. -/
lemma depressed_pair_root (u v q r : ℝ) (huv : u * v = q) (hc : u ^ 3 - v ^ 3 = 2 * r) :
    (⟨-(u - v) / 2, sq3 / 2 * (u + v)⟩ : ℂ) ^ 3
      + 3 * (q : ℂ) * (⟨-(u - v) / 2, sq3 / 2 * (u + v)⟩ : ℂ) - 2 * (r : ℂ) = 0 := by
  have ht : ((u : ℂ) - v) ^ 3 + 3 * (q : ℂ) * ((u : ℂ) - v) - 2 * (r : ℂ) = 0 := by
    exact_mod_cast congrArg (fun x : ℝ => (x : ℂ)) (depressed_real_root u v q r huv hc)
  have huv' : (u : ℂ) * v = (q : ℂ) := by exact_mod_cast huv
  rw [Complex.mk_eq_add_mul_I]
  set W : ℂ := ((-(u - v) / 2 : ℝ) : ℂ) + ((sq3 / 2 * (u + v) : ℝ) : ℂ) * Complex.I with hW
  have hWI : W + ((u : ℂ) - v) / 2 = ((sq3 / 2 * (u + v) : ℝ) : ℂ) * Complex.I := by
    rw [hW]; push_cast; ring
  have hsq : (((sq3 / 2 * (u + v) : ℝ) : ℂ) * Complex.I) ^ 2 = -(3 * ((u : ℂ) + v) ^ 2 / 4) := by
    rw [mul_pow, Complex.I_sq]
    have h1 : ((sq3 / 2 * (u + v) : ℝ) : ℂ) ^ 2 = ((sq3 ^ 2 / 4 * (u + v) ^ 2 : ℝ) : ℂ) := by
      push_cast; ring
    rw [h1, sq3_sq]
    push_cast; ring
  have hquad : W ^ 2 + ((u : ℂ) - v) * W + (((u : ℂ) - v) ^ 2 + 3 * (q : ℂ)) = 0 := by
    have e1 : W ^ 2 + ((u : ℂ) - v) * W + (((u : ℂ) - v) ^ 2 + 3 * (q : ℂ))
        = (W + ((u : ℂ) - v) / 2) ^ 2 + (3 / 4) * ((u : ℂ) - v) ^ 2 + 3 * (q : ℂ) := by ring
    rw [e1, hWI, hsq]
    linear_combination (-3 : ℂ) * huv'
  linear_combination (W - ((u : ℂ) - v)) * hquad + ht

/-- When the Viete branch is reached (`rq <= 0`), the intermediate `q` is
necessarily nonpositive (exact arithmetic). -/
lemma q_nonpos_of_rq_nonpos (q r : ℝ) (h : r ^ 2 + q ^ 3 ≤ 0) : q ≤ 0 := by
  have h3 : q ^ 3 ≤ 0 := by nlinarith [sq_nonneg r]
  exact Odd.pow_nonpos_iff ⟨1, by norm_num⟩ |>.mp h3

/-- Full specification of the Viete theta computation under `rq <= 0`: it never
faults, the returned angle lies in `[0, pi]`, and it satisfies the defining
cosine equation `sqrt(-q)^3 * cos theta = r`. -/
lemma vieteTheta_spec (q r : ℝ) (h : r ^ 2 + q ^ 3 ≤ 0) :
    ∃ theta, vieteTheta q r = some theta ∧ 0 ≤ theta ∧ theta ≤ Real.pi ∧
      Real.sqrt (-q) ^ 3 * Real.cos theta = r := by
  have hq : q ≤ 0 := q_nonpos_of_rq_nonpos q r h
  rcases eq_or_lt_of_le hq with hq0 | hqneg
  · have hr2 : r ^ 2 = 0 := by
      rw [hq0] at h
      norm_num at h
      exact le_antisymm h (sq_nonneg r)
    have hr : r = 0 := by
      exact pow_eq_zero_iff (by norm_num) |>.mp hr2
    refine ⟨0, ?_, le_refl 0, Real.pi_pos.le, ?_⟩
    · rw [vieteTheta, if_pos hq0]
    · rw [hq0, hr, neg_zero, Real.sqrt_zero]
      ring
  · have hqpos : 0 < -q := by linarith
    have hs0 : Real.sqrt (-q) ^ 3 = (-q) ^ ((3 : ℝ) / 2) := by
      rw [Real.sqrt_eq_rpow, ← Real.rpow_natCast ((-q) ^ ((1 : ℝ) / 2)) 3,
        ← Real.rpow_mul hqpos.le]
      norm_num
    have hpow_pos : 0 < (-q) ^ ((3 : ℝ) / 2) := Real.rpow_pos_of_pos hqpos _
    have hsq : ((-q) ^ ((3 : ℝ) / 2)) ^ 2 = (-q) ^ 3 := by
      rw [← Real.rpow_natCast ((-q) ^ ((3 : ℝ) / 2)) 2, ← Real.rpow_mul hqpos.le,
        ← Real.rpow_natCast (-q) 3]
      norm_num
    have hr2 : r ^ 2 ≤ (-q) ^ 3 := by nlinarith
    have hw1 : -1 ≤ r / (-q) ^ ((3 : ℝ) / 2) := by
      rw [neg_le, ← neg_div, div_le_one hpow_pos]
      nlinarith [hsq, hpow_pos]
    have hw2 : r / (-q) ^ ((3 : ℝ) / 2) ≤ 1 := by
      rw [div_le_one hpow_pos]
      nlinarith [hsq, hpow_pos]
    refine ⟨Real.arccos (r / (-q) ^ ((3 : ℝ) / 2)), ?_, Real.arccos_nonneg _,
      Real.arccos_le_pi _, ?_⟩
    · rw [vieteTheta, if_neg (ne_of_lt hqneg), if_pos hqneg]
      exact if_pos ⟨hw1, hw2⟩
    · rw [Real.cos_arccos hw1 hw2, hs0]
      field_simp

/-- The Viete root identity: if `s0^2 = -q` and `s0^3 cos(3 phi) = r`, then
`2 s0 cos(phi)` solves the depressed cubic. -/
lemma viete_root (s0 q r phi : ℝ) (hs0 : s0 ^ 2 = -q)
    (hcos : s0 ^ 3 * Real.cos (3 * phi) = r) :
    (2 * s0 * Real.cos phi) ^ 3 + 3 * q * (2 * s0 * Real.cos phi) - 2 * r = 0 := by
  have h3 := Real.cos_three_mul phi
  linear_combination (-2 * s0 ^ 3) * h3 + 2 * hcos + 6 * s0 * Real.cos phi * hs0

/-- Real version of the un-depressing identity. -/
lemma monic_of_depressed_real (a2 a1 a0 q r w : ℝ) (hq : q = a1 / 3 - a2 ^ 2 / 9)
    (hr : r = (a1 * a2 - 3 * a0) / 6 - a2 ^ 3 / 27)
    (hw : w ^ 3 + 3 * q * w - 2 * r = 0) :
    (w - a2 / 3) ^ 3 + a2 * (w - a2 / 3) ^ 2 + a1 * (w - a2 / 3) + a0 = 0 := by
  linear_combination hw - 3 * w * hq + 2 * hr

/-- Product of the real Cardano root with the squared modulus of the shifted
complex pair, in depressed-then-shifted coordinates. -/
lemma cardano_prod (u v q r n : ℝ) (huv : u * v = q) (hc : u ^ 3 - v ^ 3 = 2 * r) :
    (u - v - n) * ((u - v) / 2 + n) ^ 2 + (u - v - n) * (3 * ((u + v) / 2) ^ 2)
      = 2 * r - 3 * q * n - n ^ 3 := by
  linear_combination hc + (-3 * n) * huv

/-- In the Cardano branch, `u + v` cannot vanish (that would force `rq = 0`). -/
lemma cardano_sum_ne_zero (u v q r : ℝ) (hrq : 0 < r ^ 2 + q ^ 3) (huv : u * v = q)
    (hc : u ^ 3 - v ^ 3 = 2 * |r|) : u + v ≠ 0 := by
  intro h0
  have hv : v = -u := by linarith
  have hq2 : q = -(u ^ 2) := by rw [← huv, hv]; ring
  have habs : |r| = u ^ 3 := by
    rw [hv] at hc
    have h2 : u ^ 3 - (-u) ^ 3 = 2 * u ^ 3 := by ring
    linarith [hc, h2]
  have hr2 : r ^ 2 = u ^ 6 := by rw [← sq_abs r, habs]; ring
  have hzero : r ^ 2 + q ^ 3 = 0 := by rw [hr2, hq2]; ring
  linarith

/-- Product of the three Viete-branch roots, as a closed trigonometric identity. -/
lemma viete_prod (s0 th n : ℝ) :
    (2 * s0 * Real.cos (th / 3) - n) * (2 * s0 * Real.cos (th / 3 - pi23) - n)
        * (2 * s0 * Real.cos (th / 3 + pi23) - n)
      = 2 * s0 ^ 3 * Real.cos th + 3 * s0 ^ 2 * n - n ^ 3 := by
  have hcospi : Real.cos (2 * Real.pi / 3) = -(1 / 2) := by
    rw [show 2 * Real.pi / 3 = Real.pi - Real.pi / 3 by ring, Real.cos_pi_sub,
      Real.cos_pi_div_three]
  have hsinpi : Real.sin (2 * Real.pi / 3) = sq3 / 2 := by
    rw [show 2 * Real.pi / 3 = Real.pi - Real.pi / 3 by ring, Real.sin_pi_sub,
      Real.sin_pi_div_three, sq3]
  have hc2 : Real.cos (th / 3 - pi23) = -(Real.cos (th / 3)) / 2 + sq3 / 2 * Real.sin (th / 3) := by
    rw [pi23, Real.cos_sub, hcospi, hsinpi]; ring
  have hc3 : Real.cos (th / 3 + pi23) = -(Real.cos (th / 3)) / 2 - sq3 / 2 * Real.sin (th / 3) := by
    rw [pi23, Real.cos_add, hcospi, hsinpi]; ring
  have hcth : Real.cos th = 4 * Real.cos (th / 3) ^ 3 - 3 * Real.cos (th / 3) := by
    have h := Real.cos_three_mul (th / 3)
    rw [show 3 * (th / 3) = th by ring] at h
    exact h
  have hs2 : Real.sin (th / 3) ^ 2 = 1 - Real.cos (th / 3) ^ 2 := by
    have h := Real.sin_sq_add_cos_sq (th / 3)
    linarith
  rw [hc2, hc3, hcth]
  have hexp : (2 * s0 * (-(Real.cos (th / 3)) / 2 + sq3 / 2 * Real.sin (th / 3)) - n)
      * (2 * s0 * (-(Real.cos (th / 3)) / 2 - sq3 / 2 * Real.sin (th / 3)) - n)
      = (s0 * Real.cos (th / 3) + n) ^ 2 - s0 ^ 2 * sq3 ^ 2 * Real.sin (th / 3) ^ 2 := by
    ring
  rw [mul_assoc, hexp, sq3_sq, hs2]
  ring

/-- The three Viete-branch roots come out in descending order when
`theta` lies in `[0, pi]` and `s0 >= 0`. -/
lemma viete_ordered (s0 th n : ℝ) (hs0 : 0 ≤ s0) (h0 : 0 ≤ th) (hpi : th ≤ Real.pi) :
    2 * s0 * Real.cos (th / 3 + pi23) - n ≤ 2 * s0 * Real.cos (th / 3 - pi23) - n ∧
      2 * s0 * Real.cos (th / 3 - pi23) - n ≤ 2 * s0 * Real.cos (th / 3) - n := by
  have hpipos := Real.pi_pos
  have harg : th / 3 - pi23 = -(pi23 - th / 3) := by ring
  have hc2 : Real.cos (th / 3 - pi23) = Real.cos (pi23 - th / 3) := by
    rw [harg, Real.cos_neg]
  constructor
  · apply sub_le_sub_right
    apply mul_le_mul_of_nonneg_left _ (by linarith : (0 : ℝ) ≤ 2 * s0)
    rw [hc2]
    apply Real.cos_le_cos_of_nonneg_of_le_pi
    · rw [pi23]; linarith
    · rw [pi23]; linarith
    · rw [pi23]; linarith
  · apply sub_le_sub_right
    apply mul_le_mul_of_nonneg_left _ (by linarith : (0 : ℝ) ≤ 2 * s0)
    rw [hc2]
    apply Real.cos_le_cos_of_nonneg_of_le_pi
    · linarith
    · rw [pi23]; linarith
    · rw [pi23]; linarith

/-- The constant-coefficient identity tying the depressed quantities of
`solve_cubic_one` back to `c`. -/
lemma cubicOne_negc (a b c : ℝ) :
    2 * cubicOne_r a b c - 3 * cubicOne_q a b c * (a / 3) - (a / 3) ^ 3 = -c := by
  rw [cubicOne_q, cubicOne_r]; ring

/-! ### Branch characterizations -/

/-- Complete case analysis of a successful `solve_cubic_one` call. -/
lemma solve_cubic_one_cases (a b c y : ℝ) (h : solve_cubic_one a b c = some y) :
    (0 < cubicOne_rq a b c ∧
      ((0 ≤ cubicOne_r a b c ∧
          y = cubicOne_aa a b c - cubicOne_q a b c / cubicOne_aa a b c - a / 3) ∨
       (cubicOne_r a b c < 0 ∧
          y = cubicOne_q a b c / cubicOne_aa a b c - cubicOne_aa a b c - a / 3)))
    ∨ (¬ 0 < cubicOne_rq a b c ∧
        ∃ theta, vieteTheta (cubicOne_q a b c) (cubicOne_r a b c) = some theta ∧
          y = 2 * Real.sqrt (-cubicOne_q a b c) * Real.cos (theta / 3) - a / 3) := by
  rw [solve_cubic_one] at h
  by_cases hrq : 0 < cubicOne_rq a b c
  · left
    refine ⟨hrq, ?_⟩
    simp only [if_pos hrq, Option.some.injEq] at h
    by_cases hrs : 0 ≤ cubicOne_r a b c
    · rw [if_pos hrs] at h
      exact Or.inl ⟨hrs, h.symm⟩
    · rw [if_neg hrs] at h
      exact Or.inr ⟨lt_of_not_le hrs, h.symm⟩
  · right
    refine ⟨hrq, ?_⟩
    simp only [if_neg hrq] at h
    cases hth : vieteTheta (cubicOne_q a b c) (cubicOne_r a b c) with
    | none => rw [hth] at h; simp at h
    | some theta =>
        rw [hth] at h
        simp only [Option.map_some', Option.some.injEq] at h
        exact ⟨theta, rfl, h.symm⟩

/-- Complete case analysis of a successful `solve_cubic` call. -/
lemma solve_cubic_cases (a b c d : ℝ) (z1 z2 z3 : ℂ)
    (h : solve_cubic a b c d = some (z1, z2, z3)) :
    (0 < cubic_rq a b c d ∧ ∃ t : ℝ,
      ((0 ≤ cubic_r a b c d ∧ t = cubic_aa a b c d - cubic_q a b c d / cubic_aa a b c d) ∨
       (cubic_r a b c d < 0 ∧ t = cubic_q a b c d / cubic_aa a b c d - cubic_aa a b c d)) ∧
      z1 = ⟨t - b / a / 3, 0⟩ ∧
      z2 = ⟨-t / 2 - b / a / 3,
            sq3 / 2 * (cubic_aa a b c d + cubic_q a b c d / cubic_aa a b c d)⟩ ∧
      z3 = ⟨-t / 2 - b / a / 3,
            -(sq3 / 2 * (cubic_aa a b c d + cubic_q a b c d / cubic_aa a b c d))⟩)
    ∨ (¬ 0 < cubic_rq a b c d ∧
        ∃ theta, vieteTheta (cubic_q a b c d) (cubic_r a b c d) = some theta ∧
          z1 = ⟨2 * Real.sqrt (-cubic_q a b c d) * Real.cos (theta / 3) - b / a / 3, 0⟩ ∧
          z2 = ⟨2 * Real.sqrt (-cubic_q a b c d) * Real.cos (theta / 3 - pi23) - b / a / 3, 0⟩ ∧
          z3 = ⟨2 * Real.sqrt (-cubic_q a b c d) * Real.cos (theta / 3 + pi23) - b / a / 3, 0⟩) := by
  rw [solve_cubic] at h
  by_cases hrq : 0 < cubic_rq a b c d
  · left
    refine ⟨hrq, ?_⟩
    simp only [if_pos hrq, Option.some.injEq, Prod.mk.injEq] at h
    refine ⟨if 0 ≤ cubic_r a b c d then
        cubic_aa a b c d - cubic_q a b c d / cubic_aa a b c d
      else cubic_q a b c d / cubic_aa a b c d - cubic_aa a b c d, ?_, ?_, ?_, ?_⟩
    · by_cases hrs : 0 ≤ cubic_r a b c d
      · exact Or.inl ⟨hrs, by rw [if_pos hrs]⟩
      · exact Or.inr ⟨lt_of_not_le hrs, by rw [if_neg hrs]⟩
    · exact h.1.symm
    · exact h.2.1.symm
    · exact h.2.2.symm
  · right
    refine ⟨hrq, ?_⟩
    simp only [if_neg hrq] at h
    cases hth : vieteTheta (cubic_q a b c d) (cubic_r a b c d) with
    | none => rw [hth] at h; simp at h
    | some theta =>
        rw [hth] at h
        simp only [Option.map_some', Option.some.injEq, Prod.mk.injEq] at h
        exact ⟨theta, rfl, h.1.symm, h.2.1.symm, h.2.2.symm⟩

/-! ### Totality: none of the solvers can fault on real inputs -/

lemma solve_cubic_one_isSome (a b c : ℝ) : (solve_cubic_one a b c).isSome = true := by
  rw [solve_cubic_one]
  by_cases hrq : 0 < cubicOne_rq a b c
  · simp [hrq]
  · have hle : cubicOne_r a b c ^ 2 + cubicOne_q a b c ^ 3 ≤ 0 := by
      have := le_of_not_lt hrq; rwa [cubicOne_rq] at this
    obtain ⟨theta, hth, -, -, -⟩ := vieteTheta_spec _ _ hle
    simp [hrq, hth]

lemma solve_cubic_isSome (a b c d : ℝ) : (solve_cubic a b c d).isSome = true := by
  rw [solve_cubic]
  by_cases hrq : 0 < cubic_rq a b c d
  · simp [hrq]
  · have hle : cubic_r a b c d ^ 2 + cubic_q a b c d ^ 3 ≤ 0 := by
      have := le_of_not_lt hrq; rwa [cubic_rq] at this
    obtain ⟨theta, hth, -, -, -⟩ := vieteTheta_spec _ _ hle
    simp [hrq, hth]

lemma quartic_y_eq (a b c d e : ℝ) :
    ∃ y0, solve_cubic_one (quartic_b2 a b c)
        (quartic_b2 a b c ^ 2 / 4 - quartic_b0 a b c d e) (-(quartic_b1 a b c d ^ 2) / 8)
        = some y0
      ∧ quartic_y a b c d e = some (max y0 0) := by
  obtain ⟨y0, hy0⟩ := Option.isSome_iff_exists.mp (solve_cubic_one_isSome _ _ _)
  exact ⟨y0, hy0, by rw [quartic_y, hy0]; rfl⟩

lemma solve_quartic_isSome (a b c d e : ℝ) : (solve_quartic a b c d e).isSome = true := by
  obtain ⟨y0, -, hy⟩ := quartic_y_eq a b c d e
  rw [solve_quartic, hy]
  rfl

/-! ### Correctness of the resolvent solve, needed for the quartic -/

/-- Any value returned by `solve_cubic_one` is an exact root of the depressed
cubic (exact arithmetic). -/
lemma solve_cubic_one_root (a b c y : ℝ) (h : solve_cubic_one a b c = some y) :
    y ^ 3 + a * y ^ 2 + b * y + c = 0 := by
  have hq : cubicOne_q a b c = b / 3 - a ^ 2 / 9 := by rw [cubicOne_q]
  have hr : cubicOne_r a b c = (b * a - 3 * c) / 6 - a ^ 3 / 27 := by rw [cubicOne_r]
  rcases solve_cubic_one_cases a b c y h with ⟨hrq, hcase⟩ | ⟨hrq, theta, hth, hy⟩
  · have hrq' : 0 < cubicOne_r a b c ^ 2 + cubicOne_q a b c ^ 3 := by
      rw [cubicOne_rq] at hrq; exact hrq
    have haa : cubicOne_aa a b c
        = cbrt (|cubicOne_r a b c| + Real.sqrt (cubicOne_r a b c ^ 2 + cubicOne_q a b c ^ 3)) := by
      rw [cubicOne_aa, cubicOne_rq]
    have hupos : 0 < cubicOne_aa a b c := by rw [haa]; exact cardano_aa_pos _ _ hrq'
    have hkey : cubicOne_aa a b c ^ 3 - (cubicOne_q a b c / cubicOne_aa a b c) ^ 3
        = 2 * |cubicOne_r a b c| := by rw [haa]; exact cardano_key _ _ hrq'
    have huv : cubicOne_aa a b c * (cubicOne_q a b c / cubicOne_aa a b c) = cubicOne_q a b c := by
      field_simp
    rcases hcase with ⟨hrs, hy⟩ | ⟨hrs, hy⟩
    · rw [abs_of_nonneg hrs] at hkey
      have hroot := depressed_real_root _ _ _ _ huv hkey
      have hm := monic_of_depressed_real a b c _ _ _ hq hr hroot
      rw [hy]; exact hm
    · rw [abs_of_neg hrs] at hkey
      have hkey' : (cubicOne_q a b c / cubicOne_aa a b c) ^ 3 - cubicOne_aa a b c ^ 3
          = 2 * cubicOne_r a b c := by linarith
      have huv' : cubicOne_q a b c / cubicOne_aa a b c * cubicOne_aa a b c = cubicOne_q a b c := by
        rw [mul_comm]; exact huv
      have hroot := depressed_real_root _ _ _ _ huv' hkey'
      have hm := monic_of_depressed_real a b c _ _ _ hq hr hroot
      rw [hy]; exact hm
  · have hle : cubicOne_r a b c ^ 2 + cubicOne_q a b c ^ 3 ≤ 0 := by
      have := le_of_not_lt hrq; rwa [cubicOne_rq] at this
    obtain ⟨theta', hth', h0, hpi, hcos⟩ := vieteTheta_spec _ _ hle
    rw [hth] at hth'
    have htt : theta = theta' := Option.some_inj.mp hth'
    subst htt
    have hqle : cubicOne_q a b c ≤ 0 := q_nonpos_of_rq_nonpos _ _ hle
    have hs0sq : Real.sqrt (-cubicOne_q a b c) ^ 2 = -cubicOne_q a b c :=
      Real.sq_sqrt (by linarith)
    have hcos3 : Real.sqrt (-cubicOne_q a b c) ^ 3 * Real.cos (3 * (theta / 3))
        = cubicOne_r a b c := by
      rw [show 3 * (theta / 3) = theta by ring]; exact hcos
    have hroot := viete_root _ _ _ _ hs0sq hcos3
    have hm := monic_of_depressed_real a b c _ _ _ hq hr hroot
    rw [hy]; exact hm

/-- When the constant term is nonpositive, the root returned by
`solve_cubic_one` is nonnegative (exact arithmetic).  This is what makes the
clamp `y = max(y, 0)` in the quartic a no-op. -/
lemma solve_cubic_one_nonneg (a b c y : ℝ) (hcle : c ≤ 0)
    (h : solve_cubic_one a b c = some y) : 0 ≤ y := by
  have hnegc := cubicOne_negc a b c
  rcases solve_cubic_one_cases a b c y h with ⟨hrq, hcase⟩ | ⟨hrq, theta, hth, hy⟩
  · have hrq' : 0 < cubicOne_r a b c ^ 2 + cubicOne_q a b c ^ 3 := by
      rw [cubicOne_rq] at hrq; exact hrq
    have haa : cubicOne_aa a b c
        = cbrt (|cubicOne_r a b c| + Real.sqrt (cubicOne_r a b c ^ 2 + cubicOne_q a b c ^ 3)) := by
      rw [cubicOne_aa, cubicOne_rq]
    have hupos : 0 < cubicOne_aa a b c := by rw [haa]; exact cardano_aa_pos _ _ hrq'
    have hkey : cubicOne_aa a b c ^ 3 - (cubicOne_q a b c / cubicOne_aa a b c) ^ 3
        = 2 * |cubicOne_r a b c| := by rw [haa]; exact cardano_key _ _ hrq'
    have huv : cubicOne_aa a b c * (cubicOne_q a b c / cubicOne_aa a b c) = cubicOne_q a b c := by
      field_simp
    have hsum : cubicOne_aa a b c + cubicOne_q a b c / cubicOne_aa a b c ≠ 0 :=
      cardano_sum_ne_zero _ _ _ _ hrq' huv hkey
    have hsq : 0 < ((cubicOne_aa a b c + cubicOne_q a b c / cubicOne_aa a b c) / 2) ^ 2 :=
      sq_pos_of_ne_zero (div_ne_zero hsum two_ne_zero)
    rcases hcase with ⟨hrs, hy⟩ | ⟨hrs, hy⟩
    · rw [abs_of_nonneg hrs] at hkey
      have hprod := cardano_prod (cubicOne_aa a b c) (cubicOne_q a b c / cubicOne_aa a b c)
        (cubicOne_q a b c) (cubicOne_r a b c) (a / 3) huv hkey
      rw [hnegc, ← hy] at hprod
      nlinarith [hprod, hsq, hcle,
        sq_nonneg ((cubicOne_aa a b c - cubicOne_q a b c / cubicOne_aa a b c) / 2 + a / 3)]
    · rw [abs_of_neg hrs] at hkey
      have hkey' : (cubicOne_q a b c / cubicOne_aa a b c) ^ 3 - cubicOne_aa a b c ^ 3
          = 2 * cubicOne_r a b c := by linarith
      have huv' : cubicOne_q a b c / cubicOne_aa a b c * cubicOne_aa a b c = cubicOne_q a b c := by
        rw [mul_comm]; exact huv
      have hsum' : cubicOne_q a b c / cubicOne_aa a b c + cubicOne_aa a b c ≠ 0 := by
        rwa [add_comm] at hsum
      have hsq' : 0 < ((cubicOne_q a b c / cubicOne_aa a b c + cubicOne_aa a b c) / 2) ^ 2 :=
        sq_pos_of_ne_zero (div_ne_zero hsum' two_ne_zero)
      have hprod := cardano_prod (cubicOne_q a b c / cubicOne_aa a b c) (cubicOne_aa a b c)
        (cubicOne_q a b c) (cubicOne_r a b c) (a / 3) huv' hkey'
      rw [hnegc, ← hy] at hprod
      nlinarith [hprod, hsq', hcle,
        sq_nonneg ((cubicOne_q a b c / cubicOne_aa a b c - cubicOne_aa a b c) / 2 + a / 3)]
  · have hle : cubicOne_r a b c ^ 2 + cubicOne_q a b c ^ 3 ≤ 0 := by
      have := le_of_not_lt hrq; rwa [cubicOne_rq] at this
    obtain ⟨theta', hth', h0, hpi, hcos⟩ := vieteTheta_spec _ _ hle
    rw [hth] at hth'
    have htt : theta = theta' := Option.some_inj.mp hth'
    subst htt
    have hqle : cubicOne_q a b c ≤ 0 := q_nonpos_of_rq_nonpos _ _ hle
    have hs0 : 0 ≤ Real.sqrt (-cubicOne_q a b c) := Real.sqrt_nonneg _
    have hs0sq : Real.sqrt (-cubicOne_q a b c) ^ 2 = -cubicOne_q a b c :=
      Real.sq_sqrt (by linarith)
    have hprod := viete_prod (Real.sqrt (-cubicOne_q a b c)) theta (a / 3)
    have hRHS : 2 * Real.sqrt (-cubicOne_q a b c) ^ 3 * Real.cos theta
        + 3 * Real.sqrt (-cubicOne_q a b c) ^ 2 * (a / 3) - (a / 3) ^ 3 = -c := by
      linear_combination 2 * hcos + a * hs0sq + hnegc
    rw [hRHS, ← hy] at hprod
    obtain ⟨hord1, hord2⟩ := viete_ordered (Real.sqrt (-cubicOne_q a b c)) theta (a / 3) hs0 h0 hpi
    rw [← hy] at hord2
    by_contra hyneg
    push_neg at hyneg
    have hz2 : 2 * Real.sqrt (-cubicOne_q a b c) * Real.cos (theta / 3 - pi23) - a / 3 < 0 :=
      lt_of_le_of_lt hord2 hyneg
    have hz3 : 2 * Real.sqrt (-cubicOne_q a b c) * Real.cos (theta / 3 + pi23) - a / 3 < 0 :=
      lt_of_le_of_lt hord1 hz2
    have h23 : 0 < (2 * Real.sqrt (-cubicOne_q a b c) * Real.cos (theta / 3 - pi23) - a / 3)
        * (2 * Real.sqrt (-cubicOne_q a b c) * Real.cos (theta / 3 + pi23) - a / 3) :=
      mul_pos_of_neg_of_neg hz2 hz3
    nlinarith [hprod, h23, hyneg, hcle]

/-! ### Root correctness of `solve_cubic` over the complex numbers -/

/-- Un-depressing for roots given in explicit real/imaginary form. -/
lemma root_shift (a2 a1 a0 q r : ℝ) (hq : q = a1 / 3 - a2 ^ 2 / 9)
    (hr : r = (a1 * a2 - 3 * a0) / 6 - a2 ^ 3 / 27) (x y : ℝ)
    (hw : (⟨x, y⟩ : ℂ) ^ 3 + 3 * (q : ℂ) * (⟨x, y⟩ : ℂ) - 2 * (r : ℂ) = 0) :
    (⟨x - a2 / 3, y⟩ : ℂ) ^ 3 + (a2 : ℂ) * (⟨x - a2 / 3, y⟩ : ℂ) ^ 2
      + (a1 : ℂ) * (⟨x - a2 / 3, y⟩ : ℂ) + (a0 : ℂ) = 0 := by
  have h3 : (a2 : ℂ) / 3 = ((a2 / 3 : ℝ) : ℂ) := by push_cast; ring
  have hmk : (⟨x - a2 / 3, y⟩ : ℂ) = (⟨x, y⟩ : ℂ) - (a2 : ℂ) / 3 := by
    rw [h3, Complex.ofReal_def]
    apply Complex.ext
    · show x - a2 / 3 = x - a2 / 3
      rfl
    · show y = y - 0
      ring
  rw [hmk]
  exact monic_of_depressed a2 a1 a0 q r hq hr _ hw

/-- A real depressed root, written with explicit zero imaginary part. -/
lemma depressed_root_mk (q r w : ℝ) (hw : w ^ 3 + 3 * q * w - 2 * r = 0) :
    (⟨w, 0⟩ : ℂ) ^ 3 + 3 * (q : ℂ) * (⟨w, 0⟩ : ℂ) - 2 * (r : ℂ) = 0 := by
  rw [← Complex.ofReal_def]
  exact_mod_cast congrArg (fun x : ℝ => (x : ℂ)) hw

/-- Version of `depressed_pair_root` with the components supplied up to ring-equality. -/
lemma depressed_pair_root' (u v q r x y : ℝ) (huv : u * v = q) (hc : u ^ 3 - v ^ 3 = 2 * r)
    (hx : x = -(u - v) / 2) (hy : y = sq3 / 2 * (u + v)) :
    (⟨x, y⟩ : ℂ) ^ 3 + 3 * (q : ℂ) * (⟨x, y⟩ : ℂ) - 2 * (r : ℂ) = 0 := by
  rw [hx, hy]; exact depressed_pair_root u v q r huv hc

/-- All three outputs of a successful `solve_cubic` call are exact roots of
the normalized monic cubic (exact arithmetic). -/
lemma solve_cubic_roots_monic (a b c d : ℝ) (z1 z2 z3 : ℂ)
    (h : solve_cubic a b c d = some (z1, z2, z3)) :
    (z1 ^ 3 + ((b / a : ℝ) : ℂ) * z1 ^ 2 + ((c / a : ℝ) : ℂ) * z1 + ((d / a : ℝ) : ℂ) = 0) ∧
    (z2 ^ 3 + ((b / a : ℝ) : ℂ) * z2 ^ 2 + ((c / a : ℝ) : ℂ) * z2 + ((d / a : ℝ) : ℂ) = 0) ∧
    (z3 ^ 3 + ((b / a : ℝ) : ℂ) * z3 ^ 2 + ((c / a : ℝ) : ℂ) * z3 + ((d / a : ℝ) : ℂ) = 0) := by
  have hq : cubic_q a b c d = (c / a) / 3 - (b / a) ^ 2 / 9 := by rw [cubic_q]
  have hr : cubic_r a b c d = ((c / a) * (b / a) - 3 * (d / a)) / 6 - (b / a) ^ 3 / 27 := by
    rw [cubic_r]
  rcases solve_cubic_cases a b c d z1 z2 z3 h with
    ⟨hrq, t, htc, hz1, hz2, hz3⟩ | ⟨hrq, theta, hth, hz1, hz2, hz3⟩
  · have hrq' : 0 < cubic_r a b c d ^ 2 + cubic_q a b c d ^ 3 := by
      rw [cubic_rq] at hrq; exact hrq
    have haa : cubic_aa a b c d
        = cbrt (|cubic_r a b c d| + Real.sqrt (cubic_r a b c d ^ 2 + cubic_q a b c d ^ 3)) := by
      rw [cubic_aa, cubic_rq]
    have hupos : 0 < cubic_aa a b c d := by rw [haa]; exact cardano_aa_pos _ _ hrq'
    have hkey : cubic_aa a b c d ^ 3 - (cubic_q a b c d / cubic_aa a b c d) ^ 3
        = 2 * |cubic_r a b c d| := by rw [haa]; exact cardano_key _ _ hrq'
    have huv : cubic_aa a b c d * (cubic_q a b c d / cubic_aa a b c d) = cubic_q a b c d := by
      field_simp
    rcases htc with ⟨hrs, ht⟩ | ⟨hrs, ht⟩
    · rw [abs_of_nonneg hrs] at hkey
      refine ⟨?_, ?_, ?_⟩
      · rw [hz1, ht]
        exact root_shift _ _ _ _ _ hq hr _ _
          (depressed_root_mk _ _ _ (depressed_real_root _ _ _ _ huv hkey))
      · rw [hz2, ht]
        exact root_shift _ _ _ _ _ hq hr _ _
          (depressed_pair_root' _ _ _ _ _ _ huv hkey rfl rfl)
      · rw [hz3, ht]
        exact root_shift _ _ _ _ _ hq hr _ _
          (depressed_pair_root' (-(cubic_q a b c d / cubic_aa a b c d)) (-(cubic_aa a b c d))
            _ _ _ _ (by linear_combination huv) (by linear_combination hkey)
            (by ring) (by ring))
    · rw [abs_of_neg hrs] at hkey
      have hkey' : (cubic_q a b c d / cubic_aa a b c d) ^ 3 - cubic_aa a b c d ^ 3
          = 2 * cubic_r a b c d := by linarith
      have huv' : cubic_q a b c d / cubic_aa a b c d * cubic_aa a b c d = cubic_q a b c d := by
        rw [mul_comm]; exact huv
      refine ⟨?_, ?_, ?_⟩
      · rw [hz1, ht]
        exact root_shift _ _ _ _ _ hq hr _ _
          (depressed_root_mk _ _ _ (depressed_real_root _ _ _ _ huv' hkey'))
      · rw [hz2, ht]
        exact root_shift _ _ _ _ _ hq hr _ _
          (depressed_pair_root' (cubic_q a b c d / cubic_aa a b c d) (cubic_aa a b c d)
            _ _ _ _ huv' hkey' (by ring) (by ring))
      · rw [hz3, ht]
        exact root_shift _ _ _ _ _ hq hr _ _
          (depressed_pair_root' (-(cubic_aa a b c d)) (-(cubic_q a b c d / cubic_aa a b c d))
            _ _ _ _ (by linear_combination huv) (by linear_combination hkey')
            (by ring) (by ring))
  · have hle : cubic_r a b c d ^ 2 + cubic_q a b c d ^ 3 ≤ 0 := by
      have := le_of_not_lt hrq; rwa [cubic_rq] at this
    obtain ⟨theta', hth', h0, hpi, hcos⟩ := vieteTheta_spec _ _ hle
    rw [hth] at hth'
    have htt : theta = theta' := Option.some_inj.mp hth'
    subst htt
    have hqle : cubic_q a b c d ≤ 0 := q_nonpos_of_rq_nonpos _ _ hle
    have hs0sq : Real.sqrt (-cubic_q a b c d) ^ 2 = -cubic_q a b c d :=
      Real.sq_sqrt (by linarith)
    have hc1 : Real.sqrt (-cubic_q a b c d) ^ 3 * Real.cos (3 * (theta / 3))
        = cubic_r a b c d := by
      rw [show 3 * (theta / 3) = theta by ring]; exact hcos
    have hc2 : Real.sqrt (-cubic_q a b c d) ^ 3 * Real.cos (3 * (theta / 3 - pi23))
        = cubic_r a b c d := by
      rw [show 3 * (theta / 3 - pi23) = theta - 2 * Real.pi by rw [pi23]; ring,
        Real.cos_sub_two_pi]
      exact hcos
    have hc3 : Real.sqrt (-cubic_q a b c d) ^ 3 * Real.cos (3 * (theta / 3 + pi23))
        = cubic_r a b c d := by
      rw [show 3 * (theta / 3 + pi23) = theta + 2 * Real.pi by rw [pi23]; ring,
        Real.cos_add_two_pi]
      exact hcos
    refine ⟨?_, ?_, ?_⟩
    · rw [hz1]
      exact root_shift _ _ _ _ _ hq hr _ _
        (depressed_root_mk _ _ _ (viete_root _ _ _ _ hs0sq hc1))
    · rw [hz2]
      exact root_shift _ _ _ _ _ hq hr _ _
        (depressed_root_mk _ _ _ (viete_root _ _ _ _ hs0sq hc2))
    · rw [hz3]
      exact root_shift _ _ _ _ _ hq hr _ _
        (depressed_root_mk _ _ _ (viete_root _ _ _ _ hs0sq hc3))

/-! ### Quartic machinery -/

lemma quartic_pipeline (a b c d e : ℝ) :
    ∃ y0, solve_cubic_one (quartic_b2 a b c) (quartic_b2 a b c ^ 2 / 4 - quartic_b0 a b c d e)
        (-(quartic_b1 a b c d ^ 2) / 8) = some y0 ∧
      quartic_y a b c d e = some (max y0 0) ∧
      quartic_s a b c d e = some ((max y0 0) ^ 2 + quartic_b2 a b c * (max y0 0)
        + quartic_b2 a b c ^ 2 / 4 - quartic_b0 a b c d e) := by
  obtain ⟨y0, h1, h2⟩ := quartic_y_eq a b c d e
  exact ⟨y0, h1, h2, by rw [quartic_s, h2]; rfl⟩

/-- The resolvent root of the quartic is nonnegative, so the clamp is a no-op. -/
lemma quartic_y0_nonneg (a b c d e y0 : ℝ)
    (h : solve_cubic_one (quartic_b2 a b c) (quartic_b2 a b c ^ 2 / 4 - quartic_b0 a b c d e)
      (-(quartic_b1 a b c d ^ 2) / 8) = some y0) : 0 ≤ y0 := by
  apply solve_cubic_one_nonneg _ _ _ _ _ h
  have := sq_nonneg (quartic_b1 a b c d)
  linarith

/-- The Ferrari factorization of the depressed quartic into two quadratics,
as a polynomial identity over the complex numbers. -/
lemma ferrari_product (y b2 b1 b0 qq rr g : ℂ) (hg2 : g ^ 2 = y / 2)
    (hqq : qq = -y / 2 - b2 / 2) (h41 : 4 * g * rr = b1)
    (hc0 : (y / 2 - qq + rr) * (y / 2 - qq - rr) = b0) (w : ℂ) :
    (w ^ 2 - 2 * g * w + (y / 2 - qq + rr)) * (w ^ 2 + 2 * g * w + (y / 2 - qq - rr))
      = w ^ 4 + b2 * w ^ 2 + b1 * w + b0 := by
  linear_combination (-2 * w ^ 2) * hqq + (-4 * w ^ 2) * hg2 + w * h41 + hc0

/-- Un-depressing a quartic root. -/
lemma quartic_shift (a3 a2 a1 a0 cc b2 b1 b0 : ℝ) (hcc : cc = a3 / 4)
    (hb2 : b2 = a2 - 6 * cc ^ 2) (hb1 : b1 = a1 - 2 * a2 * cc + 8 * cc ^ 3)
    (hb0 : b0 = a0 - a1 * cc + a2 * cc ^ 2 - 3 * cc ^ 4) (w : ℂ)
    (hw : w ^ 4 + (b2 : ℂ) * w ^ 2 + (b1 : ℂ) * w + (b0 : ℂ) = 0) :
    (w - (cc : ℂ)) ^ 4 + (a3 : ℂ) * (w - (cc : ℂ)) ^ 3 + (a2 : ℂ) * (w - (cc : ℂ)) ^ 2
      + (a1 : ℂ) * (w - (cc : ℂ)) + (a0 : ℂ) = 0 := by
  have hccC : (cc : ℂ) = (a3 : ℂ) / 4 := by exact_mod_cast hcc
  have hb2C : (b2 : ℂ) = (a2 : ℂ) - 6 * (cc : ℂ) ^ 2 := by exact_mod_cast hb2
  have hb1C : (b1 : ℂ) = (a1 : ℂ) - 2 * (a2 : ℂ) * (cc : ℂ) + 8 * (cc : ℂ) ^ 3 := by
    exact_mod_cast hb1
  have hb0C : (b0 : ℂ) = (a0 : ℂ) - (a1 : ℂ) * (cc : ℂ) + (a2 : ℂ) * (cc : ℂ) ^ 2
      - 3 * (cc : ℂ) ^ 4 := by exact_mod_cast hb0
  linear_combination hw - w ^ 2 * hb2C - w * hb1C - hb0C - 4 * (w - (cc : ℂ)) ^ 3 * hccC

/-- The sign choice for `r` makes `4 g r = b1` exact. -/
lemma quartic_b1_eq (y s b1 g rr : ℝ) (hy : 0 ≤ y) (hs : 0 < s) (hg : g = Real.sqrt (y / 2))
    (hrr : rr = if b1 < 0 then -Real.sqrt s else Real.sqrt s) (hys : y * s = b1 ^ 2 / 8) :
    4 * g * rr = b1 := by
  have hgnn : 0 ≤ g := by rw [hg]; exact Real.sqrt_nonneg _
  have hgs : g * Real.sqrt s = Real.sqrt (y / 2 * s) := by
    rw [hg, ← Real.sqrt_mul (by linarith)]
  have h2 : (4 * (g * Real.sqrt s)) ^ 2 = b1 ^ 2 := by
    rw [hgs, mul_pow, Real.sq_sqrt (by positivity)]
    linear_combination 8 * hys
  have hnn : 0 ≤ 4 * (g * Real.sqrt s) := by positivity
  have hX : 4 * (g * Real.sqrt s) = |b1| := by
    have h4 : 4 * (g * Real.sqrt s) = Real.sqrt ((4 * (g * Real.sqrt s)) ^ 2) :=
      (Real.sqrt_sq hnn).symm
    rw [h4, h2, Real.sqrt_sq_eq_abs]
  by_cases hb : b1 < 0
  · rw [hrr, if_pos hb]
    rw [abs_of_neg hb] at hX
    linear_combination -hX
  · rw [hrr, if_neg hb]
    rw [abs_of_nonneg (le_of_not_lt hb)] at hX
    linear_combination hX

/-- In the `s > 0` path, all four returned roots of `solve_quartic` are exact
roots of the normalized monic quartic (exact arithmetic). -/
lemma solve_quartic_roots_monic (a b c d e : ℝ) (r1 r2 r3 r4 : Option ℂ)
    (h : solve_quartic a b c d e = some (r1, r2, r3, r4))
    (sv : ℝ) (hsv : quartic_s a b c d e = some sv) (hspos : 0 < sv) :
    ∃ z1 z2 z3 z4 : ℂ, r1 = some z1 ∧ r2 = some z2 ∧ r3 = some z3 ∧ r4 = some z4 ∧
      (z1 ^ 4 + ((b / a : ℝ) : ℂ) * z1 ^ 3 + ((c / a : ℝ) : ℂ) * z1 ^ 2
        + ((d / a : ℝ) : ℂ) * z1 + ((e / a : ℝ) : ℂ) = 0) ∧
      (z2 ^ 4 + ((b / a : ℝ) : ℂ) * z2 ^ 3 + ((c / a : ℝ) : ℂ) * z2 ^ 2
        + ((d / a : ℝ) : ℂ) * z2 + ((e / a : ℝ) : ℂ) = 0) ∧
      (z3 ^ 4 + ((b / a : ℝ) : ℂ) * z3 ^ 3 + ((c / a : ℝ) : ℂ) * z3 ^ 2
        + ((d / a : ℝ) : ℂ) * z3 + ((e / a : ℝ) : ℂ) = 0) ∧
      (z4 ^ 4 + ((b / a : ℝ) : ℂ) * z4 ^ 3 + ((c / a : ℝ) : ℂ) * z4 ^ 2
        + ((d / a : ℝ) : ℂ) * z4 + ((e / a : ℝ) : ℂ) = 0) := by
  obtain ⟨y0, hy0, hys, hss⟩ := quartic_pipeline a b c d e
  have hy0n : 0 ≤ y0 := quartic_y0_nonneg a b c d e y0 hy0
  rw [max_eq_left hy0n] at hys hss
  rw [hss] at hsv
  have hspos' : 0 < y0 ^ 2 + quartic_b2 a b c * y0 + quartic_b2 a b c ^ 2 / 4
      - quartic_b0 a b c d e := by
    rw [Option.some_inj.mp hsv]; exact hspos
  have hyroot := solve_cubic_one_root _ _ _ _ hy0
  rw [solve_quartic, hys] at h
  simp only [Option.map_some', Option.some.injEq] at h
  rw [if_pos hspos'] at h
  simp only [Prod.mk.injEq] at h
  obtain ⟨h1, h2, h3, h4⟩ := h
  set ccv := quartic_cc a b with hccv
  set b2v := quartic_b2 a b c with hb2v
  set b1v := quartic_b1 a b c d with hb1v
  set b0v := quartic_b0 a b c d e with hb0v
  set sE := y0 ^ 2 + b2v * y0 + b2v ^ 2 / 4 - b0v with hsE
  set R := if b1v < 0 then -Real.sqrt sE else Real.sqrt sE with hR
  set g := Real.sqrt (y0 / 2) with hg
  set G1 := csqrt (-y0 / 2 - b2v / 2 - R) with hG1
  set G2 := csqrt (-y0 / 2 - b2v / 2 + R) with hG2
  have hcsy : csqrt (y0 / 2) = ((g : ℝ) : ℂ) := by rw [hg]; exact csqrt_of_nonneg _ (by linarith)
  have hR2 : R ^ 2 = sE := by
    rw [hR]
    by_cases hb : b1v < 0
    · rw [if_pos hb, neg_sq]; exact Real.sq_sqrt hspos'.le
    · rw [if_neg hb]; exact Real.sq_sqrt hspos'.le
  have hysE : y0 * sE = b1v ^ 2 / 8 := by
    rw [hsE]
    linear_combination hyroot
  have h41 : 4 * g * R = b1v := quartic_b1_eq y0 sE b1v g R hy0n hspos' hg hR hysE
  have hg2R : g ^ 2 = y0 / 2 := by rw [hg]; exact Real.sq_sqrt (by linarith)
  have hg2C : ((g : ℝ) : ℂ) ^ 2 = (y0 : ℂ) / 2 := by exact_mod_cast hg2R
  have h41C : 4 * ((g : ℝ) : ℂ) * ((R : ℝ) : ℂ) = ((b1v : ℝ) : ℂ) := by exact_mod_cast h41
  have hc0R : (y0 / 2 - (-y0 / 2 - b2v / 2) + R) * (y0 / 2 - (-y0 / 2 - b2v / 2) - R) = b0v := by
    linear_combination -hR2 - hsE
  have hc0C : ((y0 : ℂ) / 2 - (-(y0 : ℂ) / 2 - (b2v : ℂ) / 2) + (R : ℝ))
      * ((y0 : ℂ) / 2 - (-(y0 : ℂ) / 2 - (b2v : ℂ) / 2) - (R : ℝ)) = ((b0v : ℝ) : ℂ) := by
    exact_mod_cast hc0R
  have hprod := fun w => ferrari_product ((y0 : ℝ) : ℂ) ((b2v : ℝ) : ℂ) ((b1v : ℝ) : ℂ)
    ((b0v : ℝ) : ℂ) (-(y0 : ℂ) / 2 - (b2v : ℂ) / 2) ((R : ℝ) : ℂ) ((g : ℝ) : ℂ)
    hg2C rfl h41C hc0C w
  have hG1sqC : G1 ^ 2 = -(y0 : ℂ) / 2 - (b2v : ℂ) / 2 - (R : ℝ) := by
    have hx := csqrt_sq (-y0 / 2 - b2v / 2 - R)
    rw [← hG1] at hx
    push_cast at hx
    linear_combination hx
  have hG2sqC : G2 ^ 2 = -(y0 : ℂ) / 2 - (b2v : ℂ) / 2 + (R : ℝ) := by
    have hx := csqrt_sq (-y0 / 2 - b2v / 2 + R)
    rw [← hG2] at hx
    push_cast at hx
    linear_combination hx
  have hq1 : (((g : ℝ) : ℂ) + G1) ^ 2 - 2 * ((g : ℝ) : ℂ) * (((g : ℝ) : ℂ) + G1)
      + ((y0 : ℂ) / 2 - (-(y0 : ℂ) / 2 - (b2v : ℂ) / 2) + (R : ℝ)) = 0 := by
    linear_combination hG1sqC - hg2C
  have hq2 : (((g : ℝ) : ℂ) - G1) ^ 2 - 2 * ((g : ℝ) : ℂ) * (((g : ℝ) : ℂ) - G1)
      + ((y0 : ℂ) / 2 - (-(y0 : ℂ) / 2 - (b2v : ℂ) / 2) + (R : ℝ)) = 0 := by
    linear_combination hG1sqC - hg2C
  have hq3 : (-((g : ℝ) : ℂ) + G2) ^ 2 + 2 * ((g : ℝ) : ℂ) * (-((g : ℝ) : ℂ) + G2)
      + ((y0 : ℂ) / 2 - (-(y0 : ℂ) / 2 - (b2v : ℂ) / 2) - (R : ℝ)) = 0 := by
    linear_combination hG2sqC - hg2C
  have hq4 : (-((g : ℝ) : ℂ) - G2) ^ 2 + 2 * ((g : ℝ) : ℂ) * (-((g : ℝ) : ℂ) - G2)
      + ((y0 : ℂ) / 2 - (-(y0 : ℂ) / 2 - (b2v : ℂ) / 2) - (R : ℝ)) = 0 := by
    linear_combination hG2sqC - hg2C
  have hD : ∀ w : ℂ,
      (w ^ 2 - 2 * ((g : ℝ) : ℂ) * w
          + ((y0 : ℂ) / 2 - (-(y0 : ℂ) / 2 - (b2v : ℂ) / 2) + (R : ℝ)) = 0) ∨
      (w ^ 2 + 2 * ((g : ℝ) : ℂ) * w
          + ((y0 : ℂ) / 2 - (-(y0 : ℂ) / 2 - (b2v : ℂ) / 2) - (R : ℝ)) = 0) →
      w ^ 4 + ((b2v : ℝ) : ℂ) * w ^ 2 + ((b1v : ℝ) : ℂ) * w + ((b0v : ℝ) : ℂ) = 0 := by
    intro w hw
    rw [← hprod w]
    rcases hw with hw | hw
    · rw [hw, zero_mul]
    · rw [hw, mul_zero]
  have hcc : ccv = b / a / 4 := by rw [hccv, quartic_cc]
  have hb2 : b2v = c / a - 6 * ccv ^ 2 := by rw [hb2v, quartic_b2, hccv]
  have hb1 : b1v = d / a - 2 * (c / a) * ccv + 8 * ccv ^ 3 := by rw [hb1v, quartic_b1, hccv]
  have hb0 : b0v = e / a - d / a * ccv + c / a * ccv ^ 2 - 3 * ccv ^ 4 := by
    rw [hb0v, quartic_b0, hccv]
  refine ⟨csqrt (y0 / 2) - (ccv : ℂ) + G1, csqrt (y0 / 2) - (ccv : ℂ) - G1,
    -csqrt (y0 / 2) - (ccv : ℂ) + G2, -csqrt (y0 / 2) - (ccv : ℂ) - G2,
    h1.symm, h2.symm, h3.symm, h4.symm, ?_, ?_, ?_, ?_⟩
  · have hA : csqrt (y0 / 2) - (ccv : ℂ) + G1 = (((g : ℝ) : ℂ) + G1) - (ccv : ℂ) := by
      rw [hcsy]; ring
    rw [hA]
    exact quartic_shift (b / a) (c / a) (d / a) (e / a) ccv b2v b1v b0v hcc hb2 hb1 hb0 _
      (hD _ (Or.inl hq1))
  · have hA : csqrt (y0 / 2) - (ccv : ℂ) - G1 = (((g : ℝ) : ℂ) - G1) - (ccv : ℂ) := by
      rw [hcsy]; ring
    rw [hA]
    exact quartic_shift (b / a) (c / a) (d / a) (e / a) ccv b2v b1v b0v hcc hb2 hb1 hb0 _
      (hD _ (Or.inl hq2))
  · have hA : -csqrt (y0 / 2) - (ccv : ℂ) + G2 = (-((g : ℝ) : ℂ) + G2) - (ccv : ℂ) := by
      rw [hcsy]; ring
    rw [hA]
    exact quartic_shift (b / a) (c / a) (d / a) (e / a) ccv b2v b1v b0v hcc hb2 hb1 hb0 _
      (hD _ (Or.inr hq3))
  · have hA : -csqrt (y0 / 2) - (ccv : ℂ) - G2 = (-((g : ℝ) : ℂ) - G2) - (ccv : ℂ) := by
      rw [hcsy]; ring
    rw [hA]
    exact quartic_shift (b / a) (c / a) (d / a) (e / a) ccv b2v b1v b0v hcc hb2 hb1 hb0 _
      (hD _ (Or.inr hq4))

/-! ### Concrete evaluations used by the witnesses -/

lemma sqrt_quarter : Real.sqrt (1 / 4) = 1 / 2 := by
  rw [show (1 / 4 : ℝ) = (1 / 2) ^ 2 by norm_num]
  exact Real.sqrt_sq (by norm_num)

lemma cbrt_one : cbrt 1 = 1 := by rw [cbrt]; exact Real.one_rpow _

lemma cubic_q_e1 : cubic_q 1 0 0 (-1) = 0 := by rw [cubic_q]; norm_num

lemma cubic_r_e1 : cubic_r 1 0 0 (-1) = 1 / 2 := by rw [cubic_r]; norm_num

lemma cubic_rq_e1 : cubic_rq 1 0 0 (-1) = 1 / 4 := by
  rw [cubic_rq, cubic_q_e1, cubic_r_e1]; norm_num

lemma cubic_aa_e1 : cubic_aa 1 0 0 (-1) = 1 := by
  rw [cubic_aa, cubic_r_e1, cubic_rq_e1, abs_of_nonneg (by norm_num : (0 : ℝ) ≤ 1 / 2),
    sqrt_quarter, show (1 / 2 : ℝ) + 1 / 2 = 1 by norm_num, cbrt_one]

lemma solve_cubic_e1 : solve_cubic 1 0 0 (-1)
    = some (⟨1, 0⟩, ⟨-(1 / 2), sq3 / 2⟩, ⟨-(1 / 2), -(sq3 / 2)⟩) := by
  have hpos : (0 : ℝ) < cubic_rq 1 0 0 (-1) := by rw [cubic_rq_e1]; norm_num
  have hrs : (0 : ℝ) ≤ cubic_r 1 0 0 (-1) := by rw [cubic_r_e1]; norm_num
  rw [solve_cubic]
  simp only [if_pos hpos, if_pos hrs, cubic_q_e1, cubic_aa_e1]
  norm_num

lemma cubicOne_q_e3 : cubicOne_q 0 0 (-1) = 0 := by rw [cubicOne_q]; norm_num

lemma cubicOne_r_e3 : cubicOne_r 0 0 (-1) = 1 / 2 := by rw [cubicOne_r]; norm_num

lemma cubicOne_rq_e3 : cubicOne_rq 0 0 (-1) = 1 / 4 := by
  rw [cubicOne_rq, cubicOne_q_e3, cubicOne_r_e3]; norm_num

lemma cubicOne_aa_e3 : cubicOne_aa 0 0 (-1) = 1 := by
  rw [cubicOne_aa, cubicOne_r_e3, cubicOne_rq_e3, abs_of_nonneg (by norm_num : (0 : ℝ) ≤ 1 / 2),
    sqrt_quarter, show (1 / 2 : ℝ) + 1 / 2 = 1 by norm_num, cbrt_one]

lemma solve_cubic_one_e3 : solve_cubic_one 0 0 (-1) = some 1 := by
  have hpos : (0 : ℝ) < cubicOne_rq 0 0 (-1) := by rw [cubicOne_rq_e3]; norm_num
  have hrs : (0 : ℝ) ≤ cubicOne_r 0 0 (-1) := by rw [cubicOne_r_e3]; norm_num
  rw [solve_cubic_one]
  simp only [if_pos hpos, if_pos hrs, cubicOne_q_e3, cubicOne_aa_e3]
  norm_num

lemma cubic_q_e2 : cubic_q 1 0 (-3) 0 = -1 := by rw [cubic_q]; norm_num

lemma cubic_r_e2 : cubic_r 1 0 (-3) 0 = 0 := by rw [cubic_r]; norm_num

lemma cubic_rq_e2 : cubic_rq 1 0 (-3) 0 = -1 := by
  rw [cubic_rq, cubic_q_e2, cubic_r_e2]; norm_num

lemma vieteTheta_e2 : vieteTheta (-1) 0 = some (Real.pi / 2) := by
  rw [vieteTheta, if_neg (by norm_num : (-1 : ℝ) ≠ 0), if_pos (by norm_num : (-1 : ℝ) < 0)]
  simp only [zero_div]
  rw [if_pos (by constructor <;> norm_num)]
  rw [Real.arccos_zero]

lemma solve_cubic_e2 : solve_cubic 1 0 (-3) 0
    = some (⟨Real.sqrt 3, 0⟩, ⟨0, 0⟩, ⟨-Real.sqrt 3, 0⟩) := by
  have hneg : ¬ (0 : ℝ) < cubic_rq 1 0 (-3) 0 := by rw [cubic_rq_e2]; norm_num
  rw [solve_cubic]
  simp only [if_neg hneg, cubic_q_e2, cubic_r_e2, vieteTheta_e2, Option.map_some']
  have hm : (2 : ℝ) * Real.sqrt (-(-1)) = 2 := by
    rw [show (-(-1) : ℝ) = 1 by norm_num, Real.sqrt_one]; norm_num
  have hphi1 : Real.cos (Real.pi / 2 / 3) = Real.sqrt 3 / 2 := by
    rw [show Real.pi / 2 / 3 = Real.pi / 6 by ring, Real.cos_pi_div_six]
  have hphi2 : Real.cos (Real.pi / 2 / 3 - pi23) = 0 := by
    rw [pi23, show Real.pi / 2 / 3 - 2 * Real.pi / 3 = -(Real.pi / 2) by ring, Real.cos_neg,
      Real.cos_pi_div_two]
  have hphi3 : Real.cos (Real.pi / 2 / 3 + pi23) = -(Real.sqrt 3 / 2) := by
    rw [pi23, show Real.pi / 2 / 3 + 2 * Real.pi / 3 = Real.pi - Real.pi / 6 by ring,
      Real.cos_pi_sub, Real.cos_pi_div_six]
  rw [hm, hphi1, hphi2, hphi3]
  norm_num
  ring

lemma rpow_49 : ((4 / 9 : ℝ)) ^ ((3 : ℝ) / 2) = 8 / 27 := by
  rw [show (4 / 9 : ℝ) = (2 / 3) ^ (2 : ℕ) by norm_num,
    ← Real.rpow_natCast ((2 : ℝ) / 3) 2, ← Real.rpow_mul (by norm_num : (0 : ℝ) ≤ 2 / 3)]
  rw [show ((2 : ℕ) : ℝ) * ((3 : ℝ) / 2) = ((3 : ℕ) : ℝ) by norm_num]
  rw [Real.rpow_natCast]
  norm_num

lemma sqrt_49 : Real.sqrt (4 / 9) = 2 / 3 := by
  rw [show (4 / 9 : ℝ) = (2 / 3) ^ 2 by norm_num]
  exact Real.sqrt_sq (by norm_num)

lemma qcc_e4 : quartic_cc 1 0 = 0 := by rw [quartic_cc]; norm_num

lemma qb2_e4 : quartic_b2 1 0 0 = 0 := by rw [quartic_b2, qcc_e4]; norm_num

lemma qb1_e4 : quartic_b1 1 0 0 4 = 4 := by rw [quartic_b1, qcc_e4]; norm_num

lemma qb0_e4 : quartic_b0 1 0 0 4 3 = 3 := by rw [quartic_b0, qcc_e4]; norm_num

lemma cubicOne_q_e4 : cubicOne_q 0 (-3) (-2) = -1 := by rw [cubicOne_q]; norm_num

lemma cubicOne_r_e4 : cubicOne_r 0 (-3) (-2) = 1 := by rw [cubicOne_r]; norm_num

lemma cubicOne_rq_e4 : cubicOne_rq 0 (-3) (-2) = 0 := by
  rw [cubicOne_rq, cubicOne_q_e4, cubicOne_r_e4]; norm_num

lemma vieteTheta_e4 : vieteTheta (-1) 1 = some 0 := by
  rw [vieteTheta, if_neg (by norm_num : (-1 : ℝ) ≠ 0), if_pos (by norm_num : (-1 : ℝ) < 0)]
  simp only [show (-(-1) : ℝ) = 1 by norm_num, Real.one_rpow, div_one]
  rw [if_pos (by constructor <;> norm_num)]
  rw [Real.arccos_one]

lemma solve_cubic_one_e4 : solve_cubic_one 0 (-3) (-2) = some 2 := by
  have hneg : ¬ (0 : ℝ) < cubicOne_rq 0 (-3) (-2) := by rw [cubicOne_rq_e4]; norm_num
  rw [solve_cubic_one]
  simp only [if_neg hneg, cubicOne_q_e4, cubicOne_r_e4, vieteTheta_e4, Option.map_some']
  rw [show (-(-1) : ℝ) = 1 by norm_num, Real.sqrt_one, show (0 : ℝ) / 3 = 0 by norm_num,
    Real.cos_zero]
  norm_num

lemma quartic_y_e4 : quartic_y 1 0 0 4 3 = some 2 := by
  rw [quartic_y, qb2_e4, qb0_e4, qb1_e4, show (0 : ℝ) ^ 2 / 4 - 3 = -3 by norm_num,
    show (-(4 ^ 2) / 8 : ℝ) = -2 by norm_num, solve_cubic_one_e4]
  simp only [Option.map_some']
  rw [show max (2 : ℝ) 0 = 2 from max_eq_left (by norm_num)]

lemma quartic_s_e4 : quartic_s 1 0 0 4 3 = some 1 := by
  rw [quartic_s, quartic_y_e4]
  simp only [Option.map_some', Option.some.injEq]
  rw [qb2_e4, qb0_e4]
  norm_num

lemma csqrt_one : csqrt 1 = 1 := by
  rw [csqrt, if_pos (by norm_num : (0 : ℝ) ≤ 1), Real.sqrt_one, Complex.ofReal_one]

lemma csqrt_zero : csqrt 0 = 0 := by
  rw [csqrt, if_pos le_rfl, Real.sqrt_zero, Complex.ofReal_zero]

lemma csqrt_neg_two : csqrt (-2) = ⟨0, Real.sqrt 2⟩ := by
  rw [csqrt, if_neg (by norm_num : ¬ (0 : ℝ) ≤ -2)]
  norm_num

lemma solve_quartic_e4 : solve_quartic 1 0 0 4 3
    = some (some ⟨1, Real.sqrt 2⟩, some ⟨1, -Real.sqrt 2⟩, some (-1), some (-1)) := by
  rw [solve_quartic, quartic_y_e4]
  simp only [Option.map_some']
  have hcond : (0 : ℝ) < 2 ^ 2 + quartic_b2 1 0 0 * 2 + quartic_b2 1 0 0 ^ 2 / 4
      - quartic_b0 1 0 0 4 3 := by
    rw [qb2_e4, qb0_e4]; norm_num
  rw [if_pos hcond]
  rw [if_neg (by rw [qb1_e4]; norm_num : ¬ quartic_b1 1 0 0 4 < 0)]
  rw [qcc_e4, qb2_e4, qb0_e4]
  rw [show (2 : ℝ) ^ 2 + 0 * 2 + 0 ^ 2 / 4 - 3 = 1 by norm_num, Real.sqrt_one]
  rw [show (2 : ℝ) / 2 = 1 by norm_num]
  rw [show (-2 / 2 - 0 / 2 - 1 : ℝ) = -2 by norm_num]
  rw [show (-2 / 2 - 0 / 2 + 1 : ℝ) = 0 by norm_num]
  rw [csqrt_one, csqrt_zero, csqrt_neg_two, Complex.ofReal_zero]
  simp only [Option.some.injEq, Prod.mk.injEq]
  refine ⟨?_, ?_, ?_, ?_⟩
  · apply Complex.ext
    · show 1 - 0 + 0 = 1
      norm_num
    · show 0 - 0 + Real.sqrt 2 = Real.sqrt 2
      norm_num
  · apply Complex.ext
    · show 1 - 0 - 0 = 1
      norm_num
    · show 0 - 0 - Real.sqrt 2 = -Real.sqrt 2
      norm_num
  · apply Complex.ext
    · show -1 - 0 + 0 = (-1 : ℂ).re
      norm_num
    · show -0 - 0 + 0 = (-1 : ℂ).im
      norm_num
  · apply Complex.ext
    · show -1 - 0 - 0 = (-1 : ℂ).re
      norm_num
    · show -0 - 0 - 0 = (-1 : ℂ).im
      norm_num

lemma qb2_e5 : quartic_b2 1 0 (-2) = -2 := by rw [quartic_b2, qcc_e4]; norm_num

lemma qb1_e5 : quartic_b1 1 0 (-2) 0 = 0 := by rw [quartic_b1, qcc_e4]; norm_num

lemma qb0_e5 : quartic_b0 1 0 (-2) 0 1 = 1 := by rw [quartic_b0, qcc_e4]; norm_num

lemma cubicOne_q_e5 : cubicOne_q (-2) 0 0 = -(4 / 9) := by rw [cubicOne_q]; norm_num

lemma cubicOne_r_e5 : cubicOne_r (-2) 0 0 = 8 / 27 := by rw [cubicOne_r]; norm_num

lemma cubicOne_rq_e5 : cubicOne_rq (-2) 0 0 = 0 := by
  rw [cubicOne_rq, cubicOne_q_e5, cubicOne_r_e5]; norm_num

lemma vieteTheta_e5 : vieteTheta (-(4 / 9)) (8 / 27) = some 0 := by
  rw [vieteTheta, if_neg (by norm_num : (-(4 / 9) : ℝ) ≠ 0),
    if_pos (by norm_num : (-(4 / 9) : ℝ) < 0)]
  simp only [show (-(-(4 / 9)) : ℝ) = 4 / 9 by norm_num, rpow_49]
  rw [show (8 / 27 : ℝ) / (8 / 27) = 1 by norm_num]
  rw [if_pos (by constructor <;> norm_num)]
  rw [Real.arccos_one]

lemma solve_cubic_one_e5 : solve_cubic_one (-2) 0 0 = some 2 := by
  have hneg : ¬ (0 : ℝ) < cubicOne_rq (-2) 0 0 := by rw [cubicOne_rq_e5]; norm_num
  rw [solve_cubic_one]
  simp only [if_neg hneg, cubicOne_q_e5, cubicOne_r_e5, vieteTheta_e5, Option.map_some']
  rw [show (-(-(4 / 9)) : ℝ) = 4 / 9 by norm_num, sqrt_49, show (0 : ℝ) / 3 = 0 by norm_num,
    Real.cos_zero]
  norm_num

lemma quartic_y_e5 : quartic_y 1 0 (-2) 0 1 = some 2 := by
  rw [quartic_y, qb2_e5, qb0_e5, qb1_e5, show ((-2 : ℝ)) ^ 2 / 4 - 1 = 0 by norm_num,
    show (-(0 ^ 2) / 8 : ℝ) = 0 by norm_num, solve_cubic_one_e5]
  simp only [Option.map_some']
  rw [show max (2 : ℝ) 0 = 2 from max_eq_left (by norm_num)]

lemma quartic_s_e5 : quartic_s 1 0 (-2) 0 1 = some 0 := by
  rw [quartic_s, quartic_y_e5]
  simp only [Option.map_some', Option.some.injEq]
  rw [qb2_e5, qb0_e5]
  norm_num

/-! ### The claims -/

/-- C1: For every finite, non-NaN real input with non-zero leading coefficient,
each of `solve_cubic`, `solve_cubic_one` and `solve_quartic` returns a numeric
output and never raises an exception or faults; in particular the Viete branch
completes without fault for every input that reaches it.  In the exact-real
embedding this is totality: every call returns `some` value (the fault paths,
modelled by `none`, are unreachable). -/
theorem c1_total_no_fault (a b c d e : ℝ) (ha : a ≠ 0) :
    (solve_cubic a b c d).isSome = true ∧ (solve_cubic_one a b c).isSome = true ∧
      (solve_quartic a b c d e).isSome = true :=
  ⟨solve_cubic_isSome a b c d, solve_cubic_one_isSome a b c, solve_quartic_isSome a b c d e⟩

theorem c1_witness : (solve_cubic 1 0 0 1).isSome = true ∧ (solve_cubic_one 1 0 0).isSome = true ∧
      (solve_quartic 1 0 0 1 1).isSome = true :=
  c1_total_no_fault 1 0 0 1 1 (by norm_num)

/-- C2: for every real `(a,b,c,d)` with `a ≠ 0`, each of the three complex
values returned by `solve_cubic` is an exact root of the cubic
`a z^3 + b z^2 + c z + d` (exact arithmetic, hence error strictly below any
positive tolerance). -/
theorem c2_cubic_root_validity (a b c d : ℝ) (ha : a ≠ 0) (z1 z2 z3 : ℂ)
    (h : solve_cubic a b c d = some (z1, z2, z3)) :
    ((a : ℝ) : ℂ) * z1 ^ 3 + ((b : ℝ) : ℂ) * z1 ^ 2 + ((c : ℝ) : ℂ) * z1 + ((d : ℝ) : ℂ) = 0 ∧
    ((a : ℝ) : ℂ) * z2 ^ 3 + ((b : ℝ) : ℂ) * z2 ^ 2 + ((c : ℝ) : ℂ) * z2 + ((d : ℝ) : ℂ) = 0 ∧
    ((a : ℝ) : ℂ) * z3 ^ 3 + ((b : ℝ) : ℂ) * z3 ^ 2 + ((c : ℝ) : ℂ) * z3 + ((d : ℝ) : ℂ) = 0 := by
  obtain ⟨h1, h2, h3⟩ := solve_cubic_roots_monic a b c d z1 z2 z3 h
  have hb : ((b / a : ℝ) : ℂ) * ((a : ℝ) : ℂ) = ((b : ℝ) : ℂ) := by
    exact_mod_cast congrArg (fun x : ℝ => (x : ℂ)) (div_mul_cancel₀ b ha)
  have hc : ((c / a : ℝ) : ℂ) * ((a : ℝ) : ℂ) = ((c : ℝ) : ℂ) := by
    exact_mod_cast congrArg (fun x : ℝ => (x : ℂ)) (div_mul_cancel₀ c ha)
  have hd : ((d / a : ℝ) : ℂ) * ((a : ℝ) : ℂ) = ((d : ℝ) : ℂ) := by
    exact_mod_cast congrArg (fun x : ℝ => (x : ℂ)) (div_mul_cancel₀ d ha)
  refine ⟨?_, ?_, ?_⟩
  · linear_combination ((a : ℝ) : ℂ) * h1 - z1 ^ 2 * hb - z1 * hc - hd
  · linear_combination ((a : ℝ) : ℂ) * h2 - z2 ^ 2 * hb - z2 * hc - hd
  · linear_combination ((a : ℝ) : ℂ) * h3 - z3 ^ 2 * hb - z3 * hc - hd

theorem c2_witness :
    ((1 : ℝ) : ℂ) * (⟨1, 0⟩ : ℂ) ^ 3 + ((0 : ℝ) : ℂ) * (⟨1, 0⟩ : ℂ) ^ 2
        + ((0 : ℝ) : ℂ) * (⟨1, 0⟩ : ℂ) + ((-1 : ℝ) : ℂ) = 0 ∧
      ((1 : ℝ) : ℂ) * (⟨-(1 / 2), sq3 / 2⟩ : ℂ) ^ 3
        + ((0 : ℝ) : ℂ) * (⟨-(1 / 2), sq3 / 2⟩ : ℂ) ^ 2
        + ((0 : ℝ) : ℂ) * (⟨-(1 / 2), sq3 / 2⟩ : ℂ) + ((-1 : ℝ) : ℂ) = 0 ∧
      ((1 : ℝ) : ℂ) * (⟨-(1 / 2), -(sq3 / 2)⟩ : ℂ) ^ 3
        + ((0 : ℝ) : ℂ) * (⟨-(1 / 2), -(sq3 / 2)⟩ : ℂ) ^ 2
        + ((0 : ℝ) : ℂ) * (⟨-(1 / 2), -(sq3 / 2)⟩ : ℂ) + ((-1 : ℝ) : ℂ) = 0 :=
  c2_cubic_root_validity 1 0 0 (-1) (by norm_num) _ _ _ solve_cubic_e1

/-- C4: on the Cardano branch (`rq > 0`) the first returned root is real and
the second and third returned roots are exact complex conjugates (equal real
parts, negated imaginary parts). -/
theorem c4_cardano_conjugate_pair (a b c d : ℝ) (z1 z2 z3 : ℂ) (hrq : 0 < cubic_rq a b c d)
    (h : solve_cubic a b c d = some (z1, z2, z3)) :
    z1.im = 0 ∧ z2.re = z3.re ∧ z2.im = -z3.im ∧ (starRingEnd ℂ) z2 = z3 := by
  rcases solve_cubic_cases a b c d z1 z2 z3 h with ⟨-, t, -, hz1, hz2, hz3⟩ | ⟨hrq', -⟩
  · refine ⟨by rw [hz1], by rw [hz2, hz3], ?_, ?_⟩
    · rw [hz2, hz3]
      show sq3 / 2 * (cubic_aa a b c d + cubic_q a b c d / cubic_aa a b c d)
        = -(-(sq3 / 2 * (cubic_aa a b c d + cubic_q a b c d / cubic_aa a b c d)))
      ring
    · rw [hz2, hz3]
      apply Complex.ext
      · rw [Complex.conj_re]
      · rw [Complex.conj_im]
  · exact absurd hrq hrq'

theorem c4_witness : (⟨1, 0⟩ : ℂ).im = 0 ∧ (⟨-(1 / 2), sq3 / 2⟩ : ℂ).re
      = (⟨-(1 / 2), -(sq3 / 2)⟩ : ℂ).re
    ∧ (⟨-(1 / 2), sq3 / 2⟩ : ℂ).im = -(⟨-(1 / 2), -(sq3 / 2)⟩ : ℂ).im
    ∧ (starRingEnd ℂ) (⟨-(1 / 2), sq3 / 2⟩ : ℂ) = (⟨-(1 / 2), -(sq3 / 2)⟩ : ℂ) :=
  c4_cardano_conjugate_pair 1 0 0 (-1) _ _ _ (by rw [cubic_rq_e1]; norm_num) solve_cubic_e1

/-- C5: on the Viete branch (`rq ≤ 0`, where `q ≤ 0` holds so the branch is
defined), all three returned roots have zero imaginary part. -/
theorem c5_viete_all_real (a b c d : ℝ) (z1 z2 z3 : ℂ) (hrq : cubic_rq a b c d ≤ 0)
    (h : solve_cubic a b c d = some (z1, z2, z3)) :
    z1.im = 0 ∧ z2.im = 0 ∧ z3.im = 0 := by
  rcases solve_cubic_cases a b c d z1 z2 z3 h with ⟨hrq', -⟩ | ⟨-, theta, -, hz1, hz2, hz3⟩
  · exact absurd hrq' (not_lt.mpr hrq)
  · exact ⟨by rw [hz1], by rw [hz2], by rw [hz3]⟩

theorem c5_witness : (⟨Real.sqrt 3, 0⟩ : ℂ).im = 0 ∧ (⟨0, 0⟩ : ℂ).im = 0
    ∧ (⟨-Real.sqrt 3, 0⟩ : ℂ).im = 0 :=
  c5_viete_all_real 1 0 (-3) 0 _ _ _ (by rw [cubic_rq_e2]; norm_num) solve_cubic_e2

/-- C8: whenever the Cardano branch is taken (`rq > 0`), the intermediate
`aa = (|r| + sqrt rq)^(1/3)` is strictly positive in both `solve_cubic` and
`solve_cubic_one`, so the divisions `q/aa` never divide by zero. -/
theorem c8_cardano_aa_pos (a b c d e f g : ℝ) :
    (0 < cubic_rq a b c d → 0 < cubic_aa a b c d) ∧
    (0 < cubicOne_rq e f g → 0 < cubicOne_aa e f g) := by
  constructor
  · intro h
    have h' : 0 < cubic_r a b c d ^ 2 + cubic_q a b c d ^ 3 := by rwa [cubic_rq] at h
    rw [cubic_aa, cubic_rq]
    exact cardano_aa_pos _ _ h'
  · intro h
    have h' : 0 < cubicOne_r e f g ^ 2 + cubicOne_q e f g ^ 3 := by rwa [cubicOne_rq] at h
    rw [cubicOne_aa, cubicOne_rq]
    exact cardano_aa_pos _ _ h'

theorem c8_witness : 0 < cubic_aa 1 0 0 (-1) ∧ 0 < cubicOne_aa 0 0 (-1) :=
  ⟨(c8_cardano_aa_pos 1 0 0 (-1) 0 0 (-1)).1 (by rw [cubic_rq_e1]; norm_num),
   (c8_cardano_aa_pos 1 0 0 (-1) 0 0 (-1)).2 (by rw [cubicOne_rq_e3]; norm_num)⟩

/-- C10: on the Viete branch (`rq ≤ 0`), the three returned real roots come
out in descending order of real part: `z1 ≥ z2 ≥ z3`. -/
theorem c10_viete_descending (a b c d : ℝ) (z1 z2 z3 : ℂ) (hrq : cubic_rq a b c d ≤ 0)
    (h : solve_cubic a b c d = some (z1, z2, z3)) :
    z3.re ≤ z2.re ∧ z2.re ≤ z1.re := by
  rcases solve_cubic_cases a b c d z1 z2 z3 h with ⟨hrq', -⟩ |
    ⟨hrq', theta, hth, hz1, hz2, hz3⟩
  · exact absurd hrq' (not_lt.mpr hrq)
  · have hle : cubic_r a b c d ^ 2 + cubic_q a b c d ^ 3 ≤ 0 := by
      have := le_of_not_lt hrq'; rwa [cubic_rq] at this
    obtain ⟨theta', hth', h0, hpi, -⟩ := vieteTheta_spec _ _ hle
    rw [hth] at hth'
    have htt : theta = theta' := Option.some_inj.mp hth'
    subst htt
    have hs0 : 0 ≤ Real.sqrt (-cubic_q a b c d) := Real.sqrt_nonneg _
    obtain ⟨ho1, ho2⟩ := viete_ordered (Real.sqrt (-cubic_q a b c d)) theta (b / a / 3) hs0 h0 hpi
    rw [hz1, hz2, hz3]
    exact ⟨ho1, ho2⟩

theorem c10_witness : (⟨-Real.sqrt 3, 0⟩ : ℂ).re ≤ (⟨0, 0⟩ : ℂ).re
    ∧ (⟨0, 0⟩ : ℂ).re ≤ (⟨Real.sqrt 3, 0⟩ : ℂ).re :=
  c10_viete_descending 1 0 (-3) 0 _ _ _ (by rw [cubic_rq_e2]; norm_num) solve_cubic_e2

/-- C3: for every real `(a,b,c,d,e)` with `a ≠ 0` for which the intermediate
`s` is positive (the documented NaN path is not taken), each of the four
returned values of `solve_quartic` is a genuine complex number and an exact
root of the quartic `a z^4 + b z^3 + c z^2 + d z + e` (exact arithmetic). -/
theorem c3_quartic_root_validity (a b c d e : ℝ) (ha : a ≠ 0) (r1 r2 r3 r4 : Option ℂ)
    (h : solve_quartic a b c d e = some (r1, r2, r3, r4))
    (sv : ℝ) (hsv : quartic_s a b c d e = some sv) (hspos : 0 < sv) :
    ∃ z1 z2 z3 z4 : ℂ, r1 = some z1 ∧ r2 = some z2 ∧ r3 = some z3 ∧ r4 = some z4 ∧
      (((a : ℝ) : ℂ) * z1 ^ 4 + ((b : ℝ) : ℂ) * z1 ^ 3 + ((c : ℝ) : ℂ) * z1 ^ 2
        + ((d : ℝ) : ℂ) * z1 + ((e : ℝ) : ℂ) = 0) ∧
      (((a : ℝ) : ℂ) * z2 ^ 4 + ((b : ℝ) : ℂ) * z2 ^ 3 + ((c : ℝ) : ℂ) * z2 ^ 2
        + ((d : ℝ) : ℂ) * z2 + ((e : ℝ) : ℂ) = 0) ∧
      (((a : ℝ) : ℂ) * z3 ^ 4 + ((b : ℝ) : ℂ) * z3 ^ 3 + ((c : ℝ) : ℂ) * z3 ^ 2
        + ((d : ℝ) : ℂ) * z3 + ((e : ℝ) : ℂ) = 0) ∧
      (((a : ℝ) : ℂ) * z4 ^ 4 + ((b : ℝ) : ℂ) * z4 ^ 3 + ((c : ℝ) : ℂ) * z4 ^ 2
        + ((d : ℝ) : ℂ) * z4 + ((e : ℝ) : ℂ) = 0) := by
  obtain ⟨z1, z2, z3, z4, e1, e2, e3, e4, p1, p2, p3, p4⟩ :=
    solve_quartic_roots_monic a b c d e r1 r2 r3 r4 h sv hsv hspos
  have hb : ((b / a : ℝ) : ℂ) * ((a : ℝ) : ℂ) = ((b : ℝ) : ℂ) := by
    exact_mod_cast congrArg (fun x : ℝ => (x : ℂ)) (div_mul_cancel₀ b ha)
  have hc : ((c / a : ℝ) : ℂ) * ((a : ℝ) : ℂ) = ((c : ℝ) : ℂ) := by
    exact_mod_cast congrArg (fun x : ℝ => (x : ℂ)) (div_mul_cancel₀ c ha)
  have hd : ((d / a : ℝ) : ℂ) * ((a : ℝ) : ℂ) = ((d : ℝ) : ℂ) := by
    exact_mod_cast congrArg (fun x : ℝ => (x : ℂ)) (div_mul_cancel₀ d ha)
  have he : ((e / a : ℝ) : ℂ) * ((a : ℝ) : ℂ) = ((e : ℝ) : ℂ) := by
    exact_mod_cast congrArg (fun x : ℝ => (x : ℂ)) (div_mul_cancel₀ e ha)
  refine ⟨z1, z2, z3, z4, e1, e2, e3, e4, ?_, ?_, ?_, ?_⟩
  · linear_combination ((a : ℝ) : ℂ) * p1 - z1 ^ 3 * hb - z1 ^ 2 * hc - z1 * hd - he
  · linear_combination ((a : ℝ) : ℂ) * p2 - z2 ^ 3 * hb - z2 ^ 2 * hc - z2 * hd - he
  · linear_combination ((a : ℝ) : ℂ) * p3 - z3 ^ 3 * hb - z3 ^ 2 * hc - z3 * hd - he
  · linear_combination ((a : ℝ) : ℂ) * p4 - z4 ^ 3 * hb - z4 ^ 2 * hc - z4 * hd - he

theorem c3_witness :
    (((1 : ℝ) : ℂ) * (⟨1, Real.sqrt 2⟩ : ℂ) ^ 4 + ((0 : ℝ) : ℂ) * (⟨1, Real.sqrt 2⟩ : ℂ) ^ 3
      + ((0 : ℝ) : ℂ) * (⟨1, Real.sqrt 2⟩ : ℂ) ^ 2 + ((4 : ℝ) : ℂ) * (⟨1, Real.sqrt 2⟩ : ℂ)
      + ((3 : ℝ) : ℂ) = 0) ∧
    (((1 : ℝ) : ℂ) * (⟨1, -Real.sqrt 2⟩ : ℂ) ^ 4 + ((0 : ℝ) : ℂ) * (⟨1, -Real.sqrt 2⟩ : ℂ) ^ 3
      + ((0 : ℝ) : ℂ) * (⟨1, -Real.sqrt 2⟩ : ℂ) ^ 2 + ((4 : ℝ) : ℂ) * (⟨1, -Real.sqrt 2⟩ : ℂ)
      + ((3 : ℝ) : ℂ) = 0) ∧
    (((1 : ℝ) : ℂ) * (-1 : ℂ) ^ 4 + ((0 : ℝ) : ℂ) * (-1 : ℂ) ^ 3
      + ((0 : ℝ) : ℂ) * (-1 : ℂ) ^ 2 + ((4 : ℝ) : ℂ) * (-1 : ℂ) + ((3 : ℝ) : ℂ) = 0) := by
  obtain ⟨z1, z2, z3, z4, e1, e2, e3, e4, p1, p2, p3, p4⟩ :=
    c3_quartic_root_validity 1 0 0 4 3 (by norm_num) _ _ _ _ solve_quartic_e4 1
      quartic_s_e4 (by norm_num)
  obtain rfl : (⟨1, Real.sqrt 2⟩ : ℂ) = z1 := Option.some_inj.mp e1
  obtain rfl : (⟨1, -Real.sqrt 2⟩ : ℂ) = z2 := Option.some_inj.mp e2
  obtain rfl : (-1 : ℂ) = z3 := Option.some_inj.mp e3
  exact ⟨p1, p2, p3⟩

/-- C6: the real root returned by `solve_cubic_one` on a depressed cubic
`(a,b,c)` equals exactly the first (real-valued) root among the three returned
by `solve_cubic` on the equivalent general cubic `(1,a,b,c)`; both sides
compute identical `q`, `r`, `rq` and `z1` formulas. -/
theorem c6_consistency (a b c y : ℝ) (z1 z2 z3 : ℂ)
    (h1 : solve_cubic_one a b c = some y) (h2 : solve_cubic 1 a b c = some (z1, z2, z3)) :
    z1 = ((y : ℝ) : ℂ) ∧ z1.im = 0 := by
  have hq : cubic_q 1 a b c = cubicOne_q a b c := by rw [cubic_q, cubicOne_q]; norm_num
  have hr : cubic_r 1 a b c = cubicOne_r a b c := by rw [cubic_r, cubicOne_r]; norm_num
  have hrq : cubic_rq 1 a b c = cubicOne_rq a b c := by rw [cubic_rq, cubicOne_rq, hq, hr]
  have haa : cubic_aa 1 a b c = cubicOne_aa a b c := by rw [cubic_aa, cubicOne_aa, hr, hrq]
  rcases solve_cubic_one_cases a b c y h1 with ⟨hrq1, hc1⟩ | ⟨hrq1, theta1, hth1, hy⟩
  · rcases solve_cubic_cases 1 a b c z1 z2 z3 h2 with ⟨hrq2, t, htc, hz1, -, -⟩ |
      ⟨hrq2, theta2, hth2, hz1, -, -⟩
    · refine ⟨?_, by rw [hz1]⟩
      rw [hz1, Complex.ofReal_def]
      apply Complex.ext
      · show t - a / 1 / 3 = y
        rcases hc1 with ⟨hrs1, hy⟩ | ⟨hrs1, hy⟩ <;> rcases htc with ⟨hrs2, ht⟩ | ⟨hrs2, ht⟩
        · rw [ht, hy, hq, haa]; norm_num
        · rw [hr] at hrs2; linarith
        · rw [hr] at hrs2; linarith
        · rw [ht, hy, hq, haa]; norm_num
      · rfl
    · rw [hrq] at hrq2
      exact absurd hrq1 hrq2
  · rcases solve_cubic_cases 1 a b c z1 z2 z3 h2 with ⟨hrq2, t, htc, hz1, -, -⟩ |
      ⟨hrq2, theta2, hth2, hz1, -, -⟩
    · rw [hrq] at hrq2
      exact absurd hrq2 hrq1
    · rw [hq, hr, hth1] at hth2
      have htt : theta1 = theta2 := Option.some_inj.mp hth2
      subst htt
      refine ⟨?_, by rw [hz1]⟩
      rw [hz1, Complex.ofReal_def]
      apply Complex.ext
      · show 2 * Real.sqrt (-cubic_q 1 a b c) * Real.cos (theta1 / 3) - a / 1 / 3 = y
        rw [hy, hq]
        norm_num
      · rfl

theorem c6_witness : (⟨1, 0⟩ : ℂ) = ((1 : ℝ) : ℂ) ∧ (⟨1, 0⟩ : ℂ).im = 0 :=
  c6_consistency 0 0 (-1) 1 _ _ _ solve_cubic_one_e3 solve_cubic_e1

/-- C7: when the intermediate `s` satisfies `s ≤ 0`, the value `r` is NaN
(modelled as `none`) and all four returned roots are NaN-contaminated
(modelled as `none` components), with no exception raised (the outer result
is still `some`); when `s > 0`, `r = -sqrt s` if `b1 < 0` and `r = sqrt s`
otherwise. -/
theorem c7_nan_path (a b c d e : ℝ) (sv : ℝ) (hsv : quartic_s a b c d e = some sv) :
    (sv ≤ 0 → quartic_r a b c d e = none ∧
      solve_quartic a b c d e = some (none, none, none, none)) ∧
    (0 < sv → quartic_r a b c d e
      = some (if quartic_b1 a b c d < 0 then -Real.sqrt sv else Real.sqrt sv)) := by
  obtain ⟨y0, hy0, hys, hss⟩ := quartic_pipeline a b c d e
  have hsvE : (max y0 0) ^ 2 + quartic_b2 a b c * (max y0 0) + quartic_b2 a b c ^ 2 / 4
      - quartic_b0 a b c d e = sv := by
    rw [hss] at hsv
    exact Option.some_inj.mp hsv
  constructor
  · intro hle
    have hnpos : ¬ 0 < (max y0 0) ^ 2 + quartic_b2 a b c * (max y0 0)
        + quartic_b2 a b c ^ 2 / 4 - quartic_b0 a b c d e := by
      rw [hsvE]; exact not_lt.mpr hle
    constructor
    · rw [quartic_r, hss]
      simp only [Option.some_bind]
      rw [if_neg hnpos]
    · rw [solve_quartic, hys]
      simp only [Option.map_some']
      rw [if_neg hnpos]
  · intro hpos
    have hpos' : 0 < (max y0 0) ^ 2 + quartic_b2 a b c * (max y0 0)
        + quartic_b2 a b c ^ 2 / 4 - quartic_b0 a b c d e := by
      rw [hsvE]; exact hpos
    rw [quartic_r, hss]
    simp only [Option.some_bind]
    rw [if_pos hpos', hsvE]

theorem c7_witness : quartic_r 1 0 (-2) 0 1 = none
    ∧ solve_quartic 1 0 (-2) 0 1 = some (none, none, none, none) :=
  (c7_nan_path 1 0 (-2) 0 1 0 quartic_s_e5).1 (by norm_num)

/-- A pair of complex numbers of the form `p + csqrt x`, `p - csqrt x` with
`p`, `x` real is either a pair of reals or a conjugate pair. -/
lemma pair_conj_or_real (p x : ℝ) (w1 w2 : ℂ)
    (hw1 : w1 = ((p : ℝ) : ℂ) + csqrt x) (hw2 : w2 = ((p : ℝ) : ℂ) - csqrt x) :
    (w1.im = 0 ∧ w2.im = 0) ∨ (starRingEnd ℂ) w1 = w2 := by
  subst hw1
  subst hw2
  by_cases hx : 0 ≤ x
  · left
    rw [csqrt_of_nonneg x hx]
    constructor
    · show (0 : ℝ) + 0 = 0
      norm_num
    · show (0 : ℝ) - 0 = 0
      norm_num
  · right
    rw [csqrt, if_neg hx]
    apply Complex.ext
    · rw [Complex.conj_re]
      show p + 0 = p - 0
      ring
    · rw [Complex.conj_im]
      show -(0 + Real.sqrt (-x)) = 0 - Real.sqrt (-x)
      ring

/-- C9: with `s > 0` (so `r` is real and, `y` being clamped nonnegative,
`p`, `p1` and `q` are real), the first two returned roots are either both
real or exact complex conjugates, and likewise the last two returned roots:
the output root set is closed under conjugation pair by pair. -/
theorem c9_conjugation_closed (a b c d e : ℝ) (r1 r2 r3 r4 : Option ℂ)
    (h : solve_quartic a b c d e = some (r1, r2, r3, r4))
    (sv : ℝ) (hsv : quartic_s a b c d e = some sv) (hspos : 0 < sv) :
    ∃ z1 z2 z3 z4 : ℂ, r1 = some z1 ∧ r2 = some z2 ∧ r3 = some z3 ∧ r4 = some z4 ∧
      ((z1.im = 0 ∧ z2.im = 0) ∨ (starRingEnd ℂ) z1 = z2) ∧
      ((z3.im = 0 ∧ z4.im = 0) ∨ (starRingEnd ℂ) z3 = z4) := by
  obtain ⟨y0, hy0, hys, hss⟩ := quartic_pipeline a b c d e
  rw [hss] at hsv
  have hspos' : 0 < (max y0 0) ^ 2 + quartic_b2 a b c * (max y0 0)
      + quartic_b2 a b c ^ 2 / 4 - quartic_b0 a b c d e := by
    rw [Option.some_inj.mp hsv]; exact hspos
  rw [solve_quartic, hys] at h
  simp only [Option.map_some', Option.some.injEq] at h
  rw [if_pos hspos'] at h
  simp only [Prod.mk.injEq] at h
  obtain ⟨h1, h2, h3, h4⟩ := h
  set RR := if quartic_b1 a b c d < 0 then
      -Real.sqrt ((max y0 0) ^ 2 + quartic_b2 a b c * (max y0 0)
        + quartic_b2 a b c ^ 2 / 4 - quartic_b0 a b c d e)
    else Real.sqrt ((max y0 0) ^ 2 + quartic_b2 a b c * (max y0 0)
        + quartic_b2 a b c ^ 2 / 4 - quartic_b0 a b c d e) with hRR
  have hynn : (0 : ℝ) ≤ max y0 0 := le_max_right _ _
  have hcsy : csqrt (max y0 0 / 2) = ((Real.sqrt (max y0 0 / 2) : ℝ) : ℂ) :=
    csqrt_of_nonneg _ (by linarith)
  refine ⟨_, _, _, _, h1.symm, h2.symm, h3.symm, h4.symm, ?_, ?_⟩
  · apply pair_conj_or_real (Real.sqrt (max y0 0 / 2) - quartic_cc a b)
      (-(max y0 0) / 2 - quartic_b2 a b c / 2 - RR)
    · rw [hcsy]; push_cast; ring
    · rw [hcsy]; push_cast; ring
  · apply pair_conj_or_real (-Real.sqrt (max y0 0 / 2) - quartic_cc a b)
      (-(max y0 0) / 2 - quartic_b2 a b c / 2 + RR)
    · rw [hcsy]; push_cast; ring
    · rw [hcsy]; push_cast; ring

theorem c9_witness :
    (((⟨1, Real.sqrt 2⟩ : ℂ).im = 0 ∧ (⟨1, -Real.sqrt 2⟩ : ℂ).im = 0) ∨
      (starRingEnd ℂ) (⟨1, Real.sqrt 2⟩ : ℂ) = (⟨1, -Real.sqrt 2⟩ : ℂ)) ∧
    ((((-1 : ℂ)).im = 0 ∧ ((-1 : ℂ)).im = 0) ∨ (starRingEnd ℂ) (-1 : ℂ) = (-1 : ℂ)) := by
  obtain ⟨z1, z2, z3, z4, e1, e2, e3, e4, q1, q2⟩ :=
    c9_conjugation_closed 1 0 0 4 3 _ _ _ _ solve_quartic_e4 1 quartic_s_e4 (by norm_num)
  obtain rfl : (⟨1, Real.sqrt 2⟩ : ℂ) = z1 := Option.some_inj.mp e1
  obtain rfl : (⟨1, -Real.sqrt 2⟩ : ℂ) = z2 := Option.some_inj.mp e2
  obtain rfl : (-1 : ℂ) = z3 := Option.some_inj.mp e3
  obtain rfl : (-1 : ℂ) = z4 := Option.some_inj.mp e4
  exact ⟨q1, q2⟩

end
